import Mathlib

/-!
# Line index of a delimited text buffer (`create_lookup`, `init.c`)

A shallow embedding of the C function `create_lookup` and a verification of
the properties of its two passes.

Modelling conventions.

* The `CharStorage` argument is a list of bytes (`Nat` values; `'\n'` is `10`
  and `'\r'` is `13`).  `length` is `input->size`, the length of that list.
* The C variables `i`, `offset`, `length`, `num_lines` have type `long`.
  They are modelled by `Int`.  Every value the function computes lies between
  `-1` and `length + 1`, so no 64-bit overflow can occur for a buffer that
  fits in memory.
* A read `data[i]` is the fallible operation `readByte`: it yields the byte
  when `0 ≤ i < length` and the fault `outOfBounds i` otherwise (in C such a
  read is undefined behaviour).
* The writes `*ldata++ = a; *ldata++ = b;` append the record `(a, b)` to the
  list of records written so far.  The list is the sequence of rows the
  extraction pass writes, whether or not the table allocated from
  `num_lines` has room for them.
* Both `for` loops are bounded by the buffer length; they are written with an
  iteration budget (`fuel`) and report `outOfFuel` when the budget is used up
  before the loop condition fails.  `create_lookup` supplies `length`
  iterations, and the theorems show that this budget is never exhausted.
* The counting loop stands under `#pragma omp parallel for private(i)`.  Its
  execution by several workers is the step function `par_run`: each worker
  walks its own contiguous index range, `i` is private, and `num_lines++` on
  the shared variable is a load followed by a store.  `count_pass` and
  `create_lookup` take the chunk sizes and the schedule of that loop as
  arguments.
* `count_loop`, `count_pass_seq` and `create_lookup_seq` are the same code
  when the counting loop is executed sequentially, which is the execution by
  one worker (`count_pass_single_worker`, `create_lookup_single_worker`).
-/

namespace CsvLookup

/-- The byte `'\n'`. -/
def LF : Nat := 10

/-- The byte `'\r'`. -/
def CR : Nat := 13

/-- Ways in which the embedded code can fail to produce a result. -/
inductive Fault where
  | outOfBounds (idx : Int)
  | outOfFuel
  deriving DecidableEq, Repr

/-- The read `data[i]` of a buffer of `data.length` bytes. -/
def readByte (data : List Nat) (i : Int) : Except Fault Nat :=
  if 0 ≤ i then
    match data[i.toNat]? with
    | some c => .ok c
    | none => .error (.outOfBounds i)
  else .error (.outOfBounds i)

/-- The counting loop, `init.c` lines 30-34:
`for (i = 0; i < length; i++) { if (data[i] == '\n') num_lines++; }`,
started from the loop state `(i, num_lines)`. -/
def count_loop (data : List Nat) (length : Int) : Nat → Int → Int → Except Fault Int
  | 0, i, num_lines => if i < length then .error .outOfFuel else .ok num_lines
  | fuel + 1, i, num_lines =>
    if i < length then
      match readByte data i with
      | .error e => .error e
      | .ok c =>
        if c = LF then count_loop data length fuel (i + 1) (num_lines + 1)
        else count_loop data length fuel (i + 1) num_lines
    else .ok num_lines

/-- The counting pass, `init.c` lines 27-38, when the counting loop is
executed sequentially (by one thread, or built without OpenMP): the loop
`count_loop` followed by `if (data[length-1] != '\n') num_lines++;`.  The
counting pass as the pragma of line 29 has it executed is `count_pass`. -/
def count_pass_seq (data : List Nat) : Except Fault Int :=
  let length : Int := data.length
  match count_loop data length data.length 0 0 with
  | .error e => .error e
  | .ok num_lines =>
    match readByte data (length - 1) with
    | .error e => .error e
    | .ok c => if c ≠ LF then .ok (num_lines + 1) else .ok num_lines

/-- The extraction loop, `init.c` lines 44-55, started from the loop state
`(i, offset)` with `ldata` the records written so far.  It returns the final
`offset` and the records.  The three reads of `data[i]` in one iteration are
one read here. -/
def extract_loop (data : List Nat) (length : Int) :
    Nat → Int → Int → List (Int × Int) → Except Fault (Int × List (Int × Int))
  | 0, i, offset, ldata => if i < length then .error .outOfFuel else .ok (offset, ldata)
  | fuel + 1, i, offset, ldata =>
    if i < length then
      match readByte data i with
      | .error e => .error e
      | .ok c =>
        if c = LF ∨ c = CR then
          let ldata := ldata ++ [(offset, i - offset)]
          let i := if c = CR then i + 1 else i
          extract_loop data length fuel (i + 1) (i + 1) ldata
        else extract_loop data length fuel (i + 1) offset ldata
    else .ok (offset, ldata)

/-- The extraction pass, `init.c` lines 43-59: the extraction loop followed by
`if (data[length-1] != '\n') { *ldata++ = offset; *ldata++ = length - offset; }`.
The result is the list of records `(offset, length)` in the order written. -/
def extract_pass (data : List Nat) : Except Fault (List (Int × Int)) :=
  let length : Int := data.length
  match extract_loop data length data.length 0 0 [] with
  | .error e => .error e
  | .ok (offset, ldata) =>
    match readByte data (length - 1) with
    | .error e => .error e
    | .ok c => if c ≠ LF then .ok (ldata ++ [(offset, length - offset)]) else .ok ldata

/-- The function `create_lookup` when its counting loop is executed
sequentially: the row count of `count_pass_seq` and the records of the
extraction pass.  `create_lookup_single_worker` shows that it is `create_lookup`
run with one worker. -/
def create_lookup_seq (input : List Nat) : Except Fault (Int × List (Int × Int)) :=
  match count_pass_seq input with
  | .error e => .error e
  | .ok num_lines =>
    match extract_pass input with
    | .error e => .error e
    | .ok ldata => .ok (num_lines, ldata)

/-- The byte at index `k` exists and is neither `'\n'` nor `'\r'`. -/
def nonDelimAt (data : List Nat) (k : Int) : Prop :=
  ∃ c, readByte data k = .ok c ∧ c ≠ LF ∧ c ≠ CR

/-- The shape of the record list of the extraction pass, read off from the
cursor `offset`: either the list is over (the last byte is `'\n'` and no
delimiter is left from `offset` on), or its first record starts at `offset` and
is the final record of an unterminated last line, or its first record is ended
by a delimiter at `o + l`, after which the cursor is `o + l + 1` (`'\n'`) or
`o + l + 2` (`'\r'`). -/
def Recs (data : List Nat) : Int → List (Int × Int) → Prop
  | offset, [] =>
    readByte data ((data.length : Int) - 1) = .ok LF ∧
      ∀ k, offset ≤ k → k < (data.length : Int) → nonDelimAt data k
  | offset, (o, l) :: rest =>
    o = offset ∧
      ((rest = [] ∧ l = (data.length : Int) - o ∧
          (∃ c, readByte data ((data.length : Int) - 1) = .ok c ∧ c ≠ LF) ∧
          ∀ k, o ≤ k → k < (data.length : Int) → nonDelimAt data k) ∨
       (0 ≤ l ∧ (∀ k, o ≤ k → k < o + l → nonDelimAt data k) ∧
          ((readByte data (o + l) = .ok LF ∧ Recs data (o + l + 1) rest) ∨
           (readByte data (o + l) = .ok CR ∧ Recs data (o + l + 2) rest))))

/-- The records the extraction loop writes while it walks the bytes `s` that
lie at the indices `i, i+1, ...`, with cursor `offset`; `skip` says that the
first byte of `s` is the byte after a `'\r'`, which the loop steps over.  This
is the loop of `extract_loop` written by recursion on the remaining bytes;
`extract_loop_eq_scan` proves that the two agree. -/
def scanRecs : List Nat → Bool → Int → Int → List (Int × Int)
  | [], _, _, _ => []
  | _ :: rest, true, i, offset => scanRecs rest false (i + 1) offset
  | c :: rest, false, i, offset =>
    if c = LF then (offset, i - offset) :: scanRecs rest false (i + 1) (i + 1)
    else if c = CR then (offset, i - offset) :: scanRecs rest true (i + 1) (i + 1 + 1)
    else scanRecs rest false (i + 1) offset

/-- The value of `offset` when the extraction loop has walked the bytes `s`
(see `scanRecs`). -/
def scanOff : List Nat → Bool → Int → Int → Int
  | [], _, _, offset => offset
  | _ :: rest, true, i, offset => scanOff rest false (i + 1) offset
  | c :: rest, false, i, offset =>
    if c = LF then scanOff rest false (i + 1) (i + 1)
    else if c = CR then scanOff rest true (i + 1) (i + 1 + 1)
    else scanOff rest false (i + 1) offset

/-- Whether the extraction loop, having walked the bytes `s`, is about to
step over the next byte (the last byte it looked at was a `'\r'`). -/
def scanSkip : List Nat → Bool → Bool
  | [], skip => skip
  | _ :: rest, true => scanSkip rest false
  | c :: rest, false => scanSkip rest (decide (c = CR))

/-- The record list of the extraction pass in closed form: the records of the
loop, and the final record when the last byte is not `'\n'`. -/
def lineRecs (data : List Nat) : List (Int × Int) :=
  scanRecs data false 0 0 ++
    if data.getLast? = some LF then []
    else [(scanOff data false 0 0, (data.length : Int) - scanOff data false 0 0)]

/-- The row count of the counting pass in closed form: the number of `'\n'`
bytes, plus one when the last byte is not `'\n'`. -/
def lineCount (data : List Nat) : Int :=
  (data.count LF : Nat) + if data.getLast? = some LF then 0 else 1

/-- The buffer `b` with every `'\n'` replaced by the two bytes `'\r'`, `'\n'`. -/
def toCRLF : List Nat → List Nat
  | [] => []
  | c :: rest => if c = LF then CR :: LF :: toCRLF rest else c :: toCRLF rest

/-- The record list `recs` with the offset of its `k`-th record (counted from
`0`) increased by `n + k`, lengths unchanged. -/
def shiftFrom : Int → List (Int × Int) → List (Int × Int)
  | _, [] => []
  | n, (o, l) :: rest => (o + n, l) :: shiftFrom (n + 1) rest

/-- The bytes `buffer[o : o+l]` of the record `r = (o, l)`. -/
def slice (data : List Nat) (r : Int × Int) : List Nat :=
  (data.drop r.1.toNat).take r.2.toNat

/-- The content of each record, in table order, each followed by one `'\n'`. -/
def reconstruct (data : List Nat) : List (Int × Int) → List Nat
  | [] => []
  | r :: rest => slice data r ++ LF :: reconstruct data rest

/-- A worker of the OpenMP `parallel for` over the counting loop (`init.c`
lines 29-34).  The loop index `i` is private to the worker (`private(i)`); `hi`
is the end of the contiguous index range the worker was given; `reg` holds the
value of the shared variable `num_lines` that a pending `num_lines++` has
loaded and not yet stored back. -/
structure Worker where
  i : Int
  hi : Int
  reg : Option Int
  deriving DecidableEq, Repr

/-- The state of the parallel counting loop: the shared variable `num_lines`
(declared outside the loop, named in no `private` or `reduction` clause) and
the workers. -/
structure ParState where
  num_lines : Int
  workers : List Worker
  deriving DecidableEq, Repr

/-- One step of a worker, given the current value of the shared `num_lines`:
it returns the new value of `num_lines` and the new state of the worker.  The
statement `num_lines++` is not atomic: it is a load of `num_lines` (first
step) followed by a store of the loaded value plus one (second step).  A
worker whose range is used up does nothing. -/
def worker_step (data : List Nat) (num_lines : Int) (w : Worker) : Except Fault (Int × Worker) :=
  match w.reg with
  | some v => .ok (v + 1, { w with i := w.i + 1, reg := none })
  | none =>
    if w.i < w.hi then
      match readByte data w.i with
      | .error e => .error e
      | .ok c =>
        if c = LF then .ok (num_lines, { w with reg := some num_lines })
        else .ok (num_lines, { w with i := w.i + 1 })
    else .ok (num_lines, w)

/-- The step of worker number `t`. -/
def par_step (data : List Nat) (st : ParState) (t : Nat) : Except Fault ParState :=
  match st.workers[t]? with
  | none => .ok st
  | some w =>
    match worker_step data st.num_lines w with
    | .error e => .error e
    | .ok (n, w') => .ok { num_lines := n, workers := st.workers.set t w' }

/-- The run of the parallel counting loop under a schedule, the list of the
numbers of the workers in the order in which they take their steps. -/
def par_run (data : List Nat) : List Nat → ParState → Except Fault ParState
  | [], st => .ok st
  | t :: rest, st =>
    match par_step data st t with
    | .error e => .error e
    | .ok st' => par_run data rest st'

/-- The workers of the `parallel for` at its start: the iterations
`lo, lo+1, ...` are handed out in contiguous chunks of the given sizes, one
chunk per worker, and no worker has a pending increment. -/
def chunkWorkers : Int → List Nat → List Worker
  | _, [] => []
  | lo, n :: rest => ⟨lo, lo + n, none⟩ :: chunkWorkers (lo + n) rest

/-- Every worker has used up its index range and has no pending increment. -/
def workers_done (ws : List Worker) : Bool :=
  ws.all (fun w => decide (w.hi ≤ w.i) && w.reg.isNone)

/-- The counting pass, `init.c` lines 27-38, as written: the counting loop is
run by the workers of `#pragma omp parallel for private(i)`, whose chunks have
the sizes `chunks` (they add up to `length`) and whose steps are interleaved as
`sched` says; once every worker is done (the barrier that ends the parallel
loop), `if (data[length-1] != '\n') num_lines++;` follows.  A schedule that
ends before every worker is done is reported as `outOfFuel`. -/
def count_pass (data : List Nat) (chunks sched : List Nat) : Except Fault Int :=
  let length : Int := data.length
  match par_run data sched ⟨0, chunkWorkers 0 chunks⟩ with
  | .error e => .error e
  | .ok st =>
    if workers_done st.workers then
      match readByte data (length - 1) with
      | .error e => .error e
      | .ok c => if c ≠ LF then .ok (st.num_lines + 1) else .ok st.num_lines
    else .error .outOfFuel

/-- The function `create_lookup`, `init.c` lines 20-64, as written: the row
count `num_lines` of the counting pass, with which the table is allocated,
and the records the extraction pass writes through `ldata`.  The chunk sizes
and the schedule of the parallel counting loop are arguments. -/
def create_lookup (input : List Nat) (chunks sched : List Nat) :
    Except Fault (Int × List (Int × Int)) :=
  match count_pass input chunks sched with
  | .error e => .error e
  | .ok num_lines =>
    match extract_pass input with
    | .error e => .error e
    | .ok ldata => .ok (num_lines, ldata)

/-- The number of `'\n'` bytes in the part of its index range that a worker
has not finished yet, `data[i], ..., data[hi-1]`. -/
def pendingLF (data : List Nat) (w : Worker) : Nat :=
  ((data.drop w.i.toNat).take (w.hi - w.i).toNat).count LF

/-- The number of `'\n'` bytes that the workers have not finished yet. -/
def pendingTotal (data : List Nat) (ws : List Worker) : Nat :=
  (ws.map (pendingLF data)).sum

/-- The invariant of the parallel counting loop, for a bound `bound` on the
count: the index of every worker stays inside the buffer; a worker with a
pending increment stands at a `'\n'` of its range; and the shared `num_lines`,
like every value a pending increment has loaded, is at most `bound` minus the
number of `'\n'` bytes not finished yet. -/
def ParInv (data : List Nat) (bound : Int) (st : ParState) : Prop :=
  (∀ w ∈ st.workers, 0 ≤ w.i ∧ w.hi ≤ (data.length : Int)) ∧
  (∀ w ∈ st.workers, ∀ v, w.reg = some v →
    w.i < w.hi ∧ readByte data w.i = .ok LF ∧
      v + (pendingTotal data st.workers : Int) ≤ bound) ∧
  st.num_lines + (pendingTotal data st.workers : Int) ≤ bound

/-! ## Reads -/

theorem readByte_ok_of_lt (data : List Nat) (i : Int) (h0 : 0 ≤ i)
    (h1 : i < (data.length : Int)) : ∃ c, readByte data i = .ok c := by
  have hlt : i.toNat < data.length := by omega
  refine ⟨data[i.toNat], ?_⟩
  simp [readByte, h0, List.getElem?_eq_getElem hlt]

theorem readByte_bounds (data : List Nat) (i : Int) (c : Nat)
    (h : readByte data i = .ok c) : 0 ≤ i ∧ i < (data.length : Int) := by
  unfold readByte at h
  split at h
  · rename_i h0
    split at h
    · rename_i c' hc
      have := (List.getElem?_eq_some_iff.mp hc).1
      omega
    · cases h
  · cases h

/-! ## The extraction loop -/

theorem recs_at_exit (data : List Nat) (cl : Nat) (offset i : Int)
    (hlast : readByte data ((data.length : Int) - 1) = .ok cl)
    (hi : ¬ i < (data.length : Int))
    (hpre : ∀ k, offset ≤ k → k < i → k < (data.length : Int) → nonDelimAt data k) :
    Recs data offset
      (if cl ≠ LF then [(offset, (data.length : Int) - offset)] else []) := by
  by_cases hcl : cl = LF
  · subst hcl
    simp only [ne_eq, not_true_eq_false, if_false, Recs]
    exact ⟨hlast, fun k h1 h2 => hpre k h1 (by omega) h2⟩
  · simp only [ne_eq, hcl, not_false_eq_true, if_true, Recs]
    exact ⟨trivial, Or.inl ⟨trivial, trivial, ⟨cl, hlast, hcl⟩,
      fun k h1 h2 => hpre k h1 (by omega) h2⟩⟩

theorem extract_loop_recs (data : List Nat) (cl : Nat)
    (hlast : readByte data ((data.length : Int) - 1) = .ok cl) :
    ∀ (fuel : Nat) (i offset : Int) (acc : List (Int × Int)),
      0 ≤ i → offset ≤ i → (data.length : Int) - i ≤ fuel →
      (∀ k, offset ≤ k → k < i → k < (data.length : Int) → nonDelimAt data k) →
      ∃ off' new, extract_loop data data.length fuel i offset acc = .ok (off', acc ++ new) ∧
        Recs data offset
          (new ++ if cl ≠ LF then [(off', (data.length : Int) - off')] else []) := by
  intro fuel
  induction fuel with
  | zero =>
    intro i offset acc h0 hoi hfuel hpre
    have hi : ¬ i < (data.length : Int) := by omega
    refine ⟨offset, [], ?_, ?_⟩
    · simp [extract_loop, hi]
    · simpa using recs_at_exit data cl offset i hlast hi hpre
  | succ fuel ih =>
    intro i offset acc h0 hoi hfuel hpre
    by_cases hi : i < (data.length : Int)
    · obtain ⟨c, hc⟩ := readByte_ok_of_lt data i h0 hi
      have hsum : offset + (i - offset) = i := by omega
      by_cases hlf : c = LF
      · obtain ⟨off', new, hrun, hrec⟩ :=
          ih (i + 1) (i + 1) (acc ++ [(offset, i - offset)]) (by omega) (by omega)
            (by push_cast at hfuel ⊢; omega) (fun k h1 h2 _ => absurd h2 (by omega))
        refine ⟨off', (offset, i - offset) :: new, ?_, ?_⟩
        · have hne : ¬ c = CR := by rw [hlf]; decide
          simp only [extract_loop, hi, if_true, hc, hlf, true_or]
          rw [hlf] at hne
          simp only [hne, if_false]
          simpa using hrun
        · simp only [List.cons_append, Recs]
          refine ⟨trivial, Or.inr ⟨by omega, ?_, Or.inl ⟨?_, ?_⟩⟩⟩
          · intro k h1 h2
            exact hpre k h1 (by omega) (by omega)
          · rw [hsum, hc, hlf]
          · rw [hsum]; exact hrec
      · by_cases hcr : c = CR
        · obtain ⟨off', new, hrun, hrec⟩ :=
            ih (i + 1 + 1) (i + 1 + 1) (acc ++ [(offset, i - offset)]) (by omega) (by omega)
              (by push_cast at hfuel ⊢; omega) (fun k h1 h2 _ => absurd h2 (by omega))
          refine ⟨off', (offset, i - offset) :: new, ?_, ?_⟩
          · simp only [extract_loop, hi, if_true, hc, hcr, or_true]
            simpa using hrun
          · simp only [List.cons_append, Recs]
            refine ⟨trivial, Or.inr ⟨by omega, ?_, Or.inr ⟨?_, ?_⟩⟩⟩
            · intro k h1 h2
              exact hpre k h1 (by omega) (by omega)
            · rw [hsum, hc, hcr]
            · rw [hsum, show i + 2 = i + 1 + 1 by omega]; exact hrec
        · obtain ⟨off', new, hrun, hrec⟩ :=
            ih (i + 1) offset acc (by omega) (by omega)
              (by push_cast at hfuel ⊢; omega)
              (fun k h1 h2 h3 => by
                by_cases hk : k = i
                · subst hk; exact ⟨c, hc, hlf, hcr⟩
                · exact hpre k h1 (by omega) h3)
          refine ⟨off', new, ?_, hrec⟩
          simp only [extract_loop, hi, if_true, hc, hlf, hcr, or_self, if_false]
          exact hrun
    · refine ⟨offset, [], ?_, ?_⟩
      · simp [extract_loop, hi]
      · simpa using recs_at_exit data cl offset i hlast hi hpre

theorem extract_pass_recs (data : List Nat) (hL : 1 ≤ data.length) :
    ∃ recs, extract_pass data = .ok recs ∧ Recs data 0 recs := by
  obtain ⟨cl, hlast⟩ := readByte_ok_of_lt data ((data.length : Int) - 1) (by omega) (by omega)
  obtain ⟨off', new, hrun, hrec⟩ :=
    extract_loop_recs data cl hlast data.length 0 0 [] (le_refl _) (le_refl _) (by omega)
      (fun k h1 h2 _ => absurd h2 (by omega))
  simp only [List.nil_append] at hrun
  by_cases hcl : cl = LF
  · refine ⟨new, ?_, ?_⟩
    · simp [extract_pass, hrun, hlast, hcl]
    · simpa [hcl] using hrec
  · refine ⟨new ++ [(off', (data.length : Int) - off')], ?_, ?_⟩
    · simp [extract_pass, hrun, hlast, hcl]
    · simpa [hcl] using hrec

/-! ## Consequences of the shape of the record list -/

theorem recs_ne_nil (data : List Nat) (offset : Int)
    (hoff : offset ≤ (data.length : Int) - 1) : ¬ Recs data offset [] := by
  intro h
  simp only [Recs] at h
  obtain ⟨c, hc, hne, _⟩ := h.2 ((data.length : Int) - 1) hoff (by omega)
  rw [h.1] at hc
  cases hc
  exact hne rfl

theorem recs_mem (data : List Nat) :
    ∀ (recs : List (Int × Int)) (offset : Int), Recs data offset recs →
      ∀ r ∈ recs, offset ≤ r.1 ∧ r.1 + r.2 ≤ (data.length : Int) ∧
        ∀ k, r.1 ≤ k → k < r.1 + r.2 → nonDelimAt data k := by
  intro recs
  induction recs with
  | nil => intro offset _ r hr; cases hr
  | cons hd rest ih =>
    obtain ⟨o, l⟩ := hd
    intro offset h r hr
    simp only [Recs] at h
    obtain ⟨ho, h⟩ := h
    rcases h with ⟨hrest, hl, _, hnd⟩ | ⟨hl, hnd, h⟩
    · subst hrest
      simp only [List.mem_singleton] at hr
      subst hr
      exact ⟨by simp [ho], by simp [hl], fun k h1 h2 => hnd k h1 (by simp [hl] at h2; omega)⟩
    · rcases List.mem_cons.mp hr with hr | hr
      · subst hr
        have hb : o + l < (data.length : Int) := by
          rcases h with ⟨hrd, _⟩ | ⟨hrd, _⟩ <;> exact (readByte_bounds data _ _ hrd).2
        exact ⟨by simp [ho], by simp; omega, hnd⟩
      · rcases h with ⟨_, h⟩ | ⟨_, h⟩
        · obtain ⟨h1, h2⟩ := ih _ h r hr
          exact ⟨by omega, h2⟩
        · obtain ⟨h1, h2⟩ := ih _ h r hr
          exact ⟨by omega, h2⟩

theorem recs_pair (data : List Nat) :
    ∀ (recs : List (Int × Int)) (offset : Int), Recs data offset recs →
      ∀ (k : Nat) (a b : Int × Int), recs[k]? = some a → recs[k + 1]? = some b →
        0 ≤ a.2 ∧
          ((readByte data (a.1 + a.2) = .ok LF ∧ b.1 = a.1 + a.2 + 1) ∨
           (readByte data (a.1 + a.2) = .ok CR ∧ b.1 = a.1 + a.2 + 2)) := by
  intro recs
  induction recs with
  | nil => intro offset _ k a b ha; simp at ha
  | cons hd rest ih =>
    obtain ⟨o, l⟩ := hd
    intro offset h k a b ha hb
    simp only [Recs] at h
    obtain ⟨_, h⟩ := h
    rcases h with ⟨hrest, _⟩ | ⟨hl, _, h⟩
    · subst hrest; simp at hb
    · cases k with
      | zero =>
        simp only [List.getElem?_cons_zero, Option.some.injEq] at ha
        subst ha
        simp only [zero_add, List.getElem?_cons_succ] at hb
        cases rest with
        | nil => simp at hb
        | cons hd2 rest2 =>
          simp only [List.getElem?_cons_zero, Option.some.injEq] at hb
          subst hb
          obtain ⟨o2, l2⟩ := hd2
          refine ⟨hl, ?_⟩
          rcases h with ⟨hrd, h⟩ | ⟨hrd, h⟩
          · simp only [Recs] at h
            exact Or.inl ⟨hrd, h.1⟩
          · simp only [Recs] at h
            exact Or.inr ⟨hrd, h.1⟩
      | succ k =>
        simp only [List.getElem?_cons_succ] at ha hb
        rcases h with ⟨_, h⟩ | ⟨_, h⟩
        · exact ih _ h k a b ha hb
        · exact ih _ h k a b ha hb

/-! ## The counting loop -/

theorem drop_of_readByte (data : List Nat) (i : Int) (c : Nat)
    (h : readByte data i = .ok c) :
    data.drop i.toNat = c :: data.drop ((i + 1).toNat) := by
  have hb := readByte_bounds data i c h
  have hlt : i.toNat < data.length := by omega
  have hget : data[i.toNat] = c := by
    simp only [readByte, hb.1, if_true, List.getElem?_eq_getElem hlt] at h
    cases h
    rfl
  have hsucc : (i + 1).toNat = i.toNat + 1 := by omega
  rw [hsucc, ← hget]
  exact List.drop_eq_getElem_cons hlt

theorem count_loop_eq (data : List Nat) :
    ∀ (fuel : Nat) (i num_lines : Int), 0 ≤ i → (data.length : Int) - i ≤ fuel →
      count_loop data data.length fuel i num_lines =
        .ok (num_lines + ((data.drop i.toNat).count LF : Nat)) := by
  intro fuel
  induction fuel with
  | zero =>
    intro i n h0 hfuel
    have hi : ¬ i < (data.length : Int) := by omega
    have hdrop : data.drop i.toNat = [] := List.drop_eq_nil_iff.mpr (by omega)
    simp [count_loop, hi, hdrop]
  | succ fuel ih =>
    intro i n h0 hfuel
    by_cases hi : i < (data.length : Int)
    · obtain ⟨c, hc⟩ := readByte_ok_of_lt data i h0 hi
      have hd := drop_of_readByte data i c hc
      have hnext := fun m => ih (i + 1) m (by omega) (by push_cast at hfuel ⊢; omega)
      by_cases hlf : c = LF
      · simp only [count_loop, hi, if_true, hc, hlf, hnext]
        rw [hd, hlf, List.count_cons_self]
        push_cast
        congr 1
        omega
      · simp only [count_loop, hi, if_true, hc, hlf, if_false, hnext]
        rw [hd, List.count_cons_of_ne (fun h => hlf h.symm)]
    · have hdrop : data.drop i.toNat = [] := List.drop_eq_nil_iff.mpr (by omega)
      simp [count_loop, hi, hdrop]

theorem count_pass_eq (data : List Nat) (hL : 1 ≤ data.length) :
    ∃ c, readByte data ((data.length : Int) - 1) = .ok c ∧
      count_pass_seq data = .ok ((data.count LF : Nat) + if c ≠ LF then 1 else 0) := by
  obtain ⟨c, hc⟩ := readByte_ok_of_lt data ((data.length : Int) - 1) (by omega) (by omega)
  refine ⟨c, hc, ?_⟩
  have hloop := count_loop_eq data data.length 0 0 (le_refl _) (by omega)
  simp only [Int.toNat_zero, List.drop_zero, zero_add] at hloop
  by_cases hlf : c = LF
  · simp [count_pass_seq, hloop, hc, hlf]
  · simp [count_pass_seq, hloop, hc, hlf]

/-! ## The passes in closed form -/

theorem readByte_last (data : List Nat) (hL : 1 ≤ data.length) (c : Nat) :
    readByte data ((data.length : Int) - 1) = .ok c ↔ data.getLast? = some c := by
  have h0 : (0 : Int) ≤ (data.length : Int) - 1 := by omega
  have hidx : ((data.length : Int) - 1).toNat = data.length - 1 := by omega
  have hlt : data.length - 1 < data.length := by omega
  rw [List.getLast?_eq_getElem?]
  simp only [readByte, h0, if_true, hidx, List.getElem?_eq_getElem hlt]
  constructor
  · intro h; cases h; rfl
  · intro h; cases h; rfl

theorem scanRecs_skip_drop (data : List Nat) (n : Nat) (i offset : Int) :
    scanRecs (data.drop n) true i offset = scanRecs (data.drop (n + 1)) false (i + 1) offset := by
  by_cases hn : n < data.length
  · rw [List.drop_eq_getElem_cons hn]
    simp [scanRecs]
  · have h1 : data.drop n = [] := List.drop_eq_nil_iff.mpr (by omega)
    have h2 : data.drop (n + 1) = [] := List.drop_eq_nil_iff.mpr (by omega)
    simp [h1, h2, scanRecs]

theorem scanOff_skip_drop (data : List Nat) (n : Nat) (i offset : Int) :
    scanOff (data.drop n) true i offset = scanOff (data.drop (n + 1)) false (i + 1) offset := by
  by_cases hn : n < data.length
  · rw [List.drop_eq_getElem_cons hn]
    simp [scanOff]
  · have h1 : data.drop n = [] := List.drop_eq_nil_iff.mpr (by omega)
    have h2 : data.drop (n + 1) = [] := List.drop_eq_nil_iff.mpr (by omega)
    simp [h1, h2, scanOff]

theorem extract_loop_eq_scan (data : List Nat) :
    ∀ (fuel : Nat) (i offset : Int) (acc : List (Int × Int)),
      0 ≤ i → (data.length : Int) - i ≤ fuel →
      extract_loop data data.length fuel i offset acc =
        .ok (scanOff (data.drop i.toNat) false i offset,
          acc ++ scanRecs (data.drop i.toNat) false i offset) := by
  intro fuel
  induction fuel with
  | zero =>
    intro i offset acc h0 hfuel
    have hi : ¬ i < (data.length : Int) := by omega
    have hdrop : data.drop i.toNat = [] := List.drop_eq_nil_iff.mpr (by omega)
    simp [extract_loop, hi, hdrop, scanOff, scanRecs]
  | succ fuel ih =>
    intro i offset acc h0 hfuel
    by_cases hi : i < (data.length : Int)
    · obtain ⟨c, hc⟩ := readByte_ok_of_lt data i h0 hi
      have hd := drop_of_readByte data i c hc
      have hs1 : (i + 1).toNat = i.toNat + 1 := by omega
      have hs2 : (i + 1 + 1).toNat = i.toNat + 1 + 1 := by omega
      by_cases hlf : c = LF
      · have hne : ¬ LF = CR := by decide
        rw [hd, hlf]
        simp only [extract_loop, hi, if_true, hc, hlf, true_or, hne, if_false, scanOff, scanRecs]
        rw [ih (i + 1) (i + 1) _ (by omega) (by push_cast at hfuel ⊢; omega)]
        simp
      · by_cases hcr : c = CR
        · have hne : ¬ CR = LF := by decide
          rw [hd, hcr]
          simp only [extract_loop, hi, if_true, hc, hcr, or_true, hne, if_false, scanOff,
            scanRecs]
          rw [ih (i + 1 + 1) (i + 1 + 1) _ (by omega) (by push_cast at hfuel ⊢; omega)]
          rw [hs1, scanRecs_skip_drop, scanOff_skip_drop, hs2]
          simp
        · rw [hd]
          simp only [extract_loop, hi, if_true, hc, hlf, hcr, or_self, if_false, scanOff,
            scanRecs]
          rw [ih (i + 1) offset _ (by omega) (by push_cast at hfuel ⊢; omega)]
    · have hdrop : data.drop i.toNat = [] := List.drop_eq_nil_iff.mpr (by omega)
      simp [extract_loop, hi, hdrop, scanOff, scanRecs]

theorem extract_pass_eq (data : List Nat) (hL : 1 ≤ data.length) :
    extract_pass data = .ok (lineRecs data) := by
  obtain ⟨c, hc⟩ := readByte_ok_of_lt data ((data.length : Int) - 1) (by omega) (by omega)
  have hlast := (readByte_last data hL c).mp hc
  have hloop := extract_loop_eq_scan data data.length 0 0 [] (le_refl _) (by omega)
  simp only [Int.toNat_zero, List.drop_zero, List.nil_append] at hloop
  by_cases hlf : c = LF
  · simp [extract_pass, hloop, hc, hlf, lineRecs, hlast]
  · simp [extract_pass, hloop, hc, hlf, lineRecs, hlast]

theorem count_pass_eq_lineCount (data : List Nat) (hL : 1 ≤ data.length) :
    count_pass_seq data = .ok (lineCount data) := by
  obtain ⟨c, hc, hcount⟩ := count_pass_eq data hL
  have hlast := (readByte_last data hL c).mp hc
  by_cases hlf : c = LF
  · simp [hcount, lineCount, hlast, hlf]
  · simp [hcount, lineCount, hlast, hlf]

theorem create_lookup_eq (data : List Nat) (hL : 1 ≤ data.length) :
    create_lookup_seq data = .ok (lineCount data, lineRecs data) := by
  simp [create_lookup_seq, count_pass_eq_lineCount data hL, extract_pass_eq data hL]

/-! ## The scan of a concatenation -/

theorem scanSkip_append (s t : List Nat) :
    ∀ skip : Bool, scanSkip (s ++ t) skip = scanSkip t (scanSkip s skip) := by
  induction s with
  | nil => intro skip; rfl
  | cons c rest ih =>
    intro skip
    cases skip
    · simp only [List.cons_append, scanSkip]; exact ih _
    · simp only [List.cons_append, scanSkip]; exact ih _

theorem scanOff_append (s t : List Nat) :
    ∀ (skip : Bool) (i offset : Int),
      scanOff (s ++ t) skip i offset =
        scanOff t (scanSkip s skip) (i + (s.length : Int)) (scanOff s skip i offset) := by
  induction s with
  | nil => intro skip i offset; simp [scanOff, scanSkip]
  | cons c rest ih =>
    intro skip i offset
    have hlen : i + ((c :: rest).length : Int) = i + 1 + (rest.length : Int) := by
      simp only [List.length_cons]; push_cast; omega
    rw [hlen]
    cases skip
    · by_cases hlf : c = LF
      · have hne : ¬ LF = CR := by decide
        simp only [List.cons_append, scanOff, scanSkip, hlf, if_true, hne, decide_False]
        exact ih _ _ _
      · by_cases hcr : c = CR
        · have hne : ¬ CR = LF := by decide
          simp only [List.cons_append, scanOff, scanSkip, hcr, if_true, hne, if_false,
            decide_True]
          exact ih _ _ _
        · simp only [List.cons_append, scanOff, scanSkip, hlf, hcr, if_false, decide_False]
          exact ih _ _ _
    · simp only [List.cons_append, scanOff, scanSkip]
      exact ih _ _ _

theorem scanRecs_append (s t : List Nat) :
    ∀ (skip : Bool) (i offset : Int),
      scanRecs (s ++ t) skip i offset =
        scanRecs s skip i offset ++
          scanRecs t (scanSkip s skip) (i + (s.length : Int)) (scanOff s skip i offset) := by
  induction s with
  | nil => intro skip i offset; simp [scanRecs, scanOff, scanSkip]
  | cons c rest ih =>
    intro skip i offset
    have hlen : i + ((c :: rest).length : Int) = i + 1 + (rest.length : Int) := by
      simp only [List.length_cons]; push_cast; omega
    rw [hlen]
    cases skip
    · by_cases hlf : c = LF
      · have hne : ¬ LF = CR := by decide
        simp only [List.cons_append, scanRecs, scanOff, scanSkip, hlf, if_true, hne,
          decide_False]
        exact congrArg _ (ih _ _ _)
      · by_cases hcr : c = CR
        · have hne : ¬ CR = LF := by decide
          simp only [List.cons_append, scanRecs, scanOff, scanSkip, hcr, if_true, hne, if_false,
            decide_True]
          exact congrArg _ (ih _ _ _)
        · simp only [List.cons_append, scanRecs, scanOff, scanSkip, hlf, hcr, if_false,
            decide_False]
          exact ih _ _ _
    · simp only [List.cons_append, scanRecs, scanOff, scanSkip]
      exact ih _ _ _

theorem scan_last_not_delim (b0 : List Nat) (x : Nat) (hcr : x ≠ CR) (hlf : x ≠ LF) :
    scanSkip (b0 ++ [x]) false = false ∧
      scanRecs (b0 ++ [x]) false 0 0 = scanRecs b0 false 0 0 ∧
      scanOff (b0 ++ [x]) false 0 0 = scanOff b0 false 0 0 := by
  rw [scanSkip_append, scanRecs_append, scanOff_append]
  cases scanSkip b0 false <;> simp [scanSkip, scanRecs, scanOff, hcr, hlf]

/-! ## Records of the loop against `'\n'` bytes -/

theorem scanRecs_length_ge (s : List Nat) :
    ∀ (skip : Bool) (i offset : Int),
      s.count LF ≤ (scanRecs s skip i offset).length + (if skip then 1 else 0) := by
  induction s with
  | nil => intro skip i offset; simp
  | cons c rest ih =>
    intro skip i offset
    have hle : (c :: rest).count LF ≤ rest.count LF + 1 := by
      rw [List.count_cons]; split <;> omega
    cases skip
    · by_cases hlf : c = LF
      · have h := ih false (i + 1) (i + 1)
        have hrec : scanRecs (c :: rest) false i offset =
            (offset, i - offset) :: scanRecs rest false (i + 1) (i + 1) := by
          simp [scanRecs, hlf]
        rw [hrec, List.length_cons]
        simp only [Bool.false_eq_true, if_false] at h ⊢
        omega
      · have hcount : (c :: rest).count LF = rest.count LF :=
          List.count_cons_of_ne (fun h => hlf h.symm) rest
        by_cases hcr : c = CR
        · have h := ih true (i + 1) (i + 1 + 1)
          have hrec : scanRecs (c :: rest) false i offset =
              (offset, i - offset) :: scanRecs rest true (i + 1) (i + 1 + 1) := by
            have hne : ¬ CR = LF := by decide
            simp [scanRecs, hcr, hne]
          rw [hrec, List.length_cons, hcount]
          simp only [if_true, Bool.false_eq_true, if_false] at h ⊢
          omega
        · have h := ih false (i + 1) offset
          have hrec : scanRecs (c :: rest) false i offset =
              scanRecs rest false (i + 1) offset := by
            simp [scanRecs, hlf, hcr]
          rw [hrec, hcount]
          exact h
    · have h := ih false (i + 1) offset
      have hrec : scanRecs (c :: rest) true i offset = scanRecs rest false (i + 1) offset := by
        simp [scanRecs]
      rw [hrec]
      simp only [if_true, Bool.false_eq_true, if_false] at h ⊢
      omega

theorem scanRecs_length_eq (s : List Nat) :
    ∀ (skip : Bool) (i offset : Int),
      (∀ k : Nat, s[k]? = some CR → s[k + 1]? = some LF) →
      (skip = true → s.head? = some LF) →
      (scanRecs s skip i offset).length + (if skip then 1 else 0) = s.count LF := by
  induction s with
  | nil =>
    intro skip i offset _ hskip
    cases skip
    · simp [scanRecs]
    · simp at hskip
  | cons c rest ih =>
    intro skip i offset hcr hskip
    have hrest : ∀ k : Nat, rest[k]? = some CR → rest[k + 1]? = some LF := by
      intro k hk
      have := hcr (k + 1) (by simpa using hk)
      simpa using this
    cases skip
    · by_cases hlf : c = LF
      · have h := ih false (i + 1) (i + 1) hrest (by simp)
        have hrec : scanRecs (c :: rest) false i offset =
            (offset, i - offset) :: scanRecs rest false (i + 1) (i + 1) := by
          simp [scanRecs, hlf]
        rw [hrec, List.length_cons, hlf, List.count_cons_self]
        simp only [Bool.false_eq_true, if_false] at h ⊢
        omega
      · have hcount : (c :: rest).count LF = rest.count LF :=
          List.count_cons_of_ne (fun h => hlf h.symm) rest
        by_cases hc : c = CR
        · have hhead : rest.head? = some LF := by
            have := hcr 0 (by simp [hc])
            simpa [List.head?_eq_getElem?] using this
          have h := ih true (i + 1) (i + 1 + 1) hrest (fun _ => hhead)
          have hrec : scanRecs (c :: rest) false i offset =
              (offset, i - offset) :: scanRecs rest true (i + 1) (i + 1 + 1) := by
            have hne : ¬ CR = LF := by decide
            simp [scanRecs, hc, hne]
          rw [hrec, List.length_cons, hcount]
          simp only [if_true, Bool.false_eq_true, if_false] at h ⊢
          omega
        · have h := ih false (i + 1) offset hrest (by simp)
          have hrec : scanRecs (c :: rest) false i offset =
              scanRecs rest false (i + 1) offset := by
            simp [scanRecs, hlf, hc]
          rw [hrec, hcount]
          exact h
    · have hc : c = LF := by simpa using hskip rfl
      have h := ih false (i + 1) offset hrest (by simp)
      have hrec : scanRecs (c :: rest) true i offset = scanRecs rest false (i + 1) offset := by
        simp [scanRecs]
      rw [hrec, hc, List.count_cons_self]
      simp only [if_true, Bool.false_eq_true, if_false] at h ⊢
      omega

theorem lineRecs_length (data : List Nat) :
    ((lineRecs data).length : Int) =
      ((scanRecs data false 0 0).length : Int) + if data.getLast? = some LF then 0 else 1 := by
  unfold lineRecs
  split <;> simp

/-! ## Line feeds replaced by carriage return, line feed -/

theorem toCRLF_append (s t : List Nat) : toCRLF (s ++ t) = toCRLF s ++ toCRLF t := by
  induction s with
  | nil => rfl
  | cons c rest ih =>
    by_cases hlf : c = LF
    · simp [toCRLF, hlf, ih]
    · simp [toCRLF, hlf, ih]

theorem toCRLF_count (s : List Nat) : (toCRLF s).count LF = s.count LF := by
  induction s with
  | nil => rfl
  | cons c rest ih =>
    by_cases hlf : c = LF
    · have hne : ¬ CR = LF := by decide
      simp [toCRLF, hlf, ih, List.count_cons, hne]
    · have hne : ¬ LF = c := fun h => hlf h.symm
      simp [toCRLF, hlf, ih, List.count_cons, hne]

theorem toCRLF_length (s : List Nat) : (toCRLF s).length = s.length + s.count LF := by
  induction s with
  | nil => rfl
  | cons c rest ih =>
    by_cases hlf : c = LF
    · simp [toCRLF, hlf, ih]
      omega
    · have hne : ¬ LF = c := fun h => hlf h.symm
      simp [toCRLF, hlf, ih, List.count_cons, hne]
      omega

theorem toCRLF_getLast (s : List Nat) :
    (toCRLF s).getLast? = some LF ↔ s.getLast? = some LF := by
  rcases List.eq_nil_or_concat s with h | ⟨s0, x, h⟩
  · subst h; simp [toCRLF]
  · rw [List.concat_eq_append] at h
    subst h
    rw [toCRLF_append, List.getLast?_concat]
    by_cases hlf : x = LF
    · simp [toCRLF, hlf]
    · simp [toCRLF, hlf]

theorem scan_toCRLF (s : List Nat) (hcr : ∀ c ∈ s, c ≠ CR) :
    ∀ (n i offset : Int),
      scanRecs (toCRLF s) false (i + n) (offset + n) = shiftFrom n (scanRecs s false i offset) ∧
      scanOff (toCRLF s) false (i + n) (offset + n) =
        scanOff s false i offset + n + ((scanRecs s false i offset).length : Int) := by
  induction s with
  | nil => intro n i offset; simp [toCRLF, scanRecs, scanOff, shiftFrom]
  | cons c rest ih =>
    intro n i offset
    have hrest : ∀ c ∈ rest, c ≠ CR := fun x hx => hcr x (List.mem_cons_of_mem c hx)
    have hc : ¬ c = CR := hcr c (List.mem_cons_self c rest)
    by_cases hlf : c = LF
    · have hne1 : ¬ CR = LF := by decide
      have hne2 : ¬ LF = CR := by decide
      obtain ⟨h1, h2⟩ := ih hrest (n + 1) (i + 1) (i + 1)
      have e1 : i + n + 1 + 1 = i + 1 + (n + 1) := by omega
      have e2 : i + n - (offset + n) = i - offset := by omega
      simp only [toCRLF, hlf, if_true, scanRecs, scanOff, hne1, hne2, if_false, shiftFrom,
        List.length_cons, e1, e2, h1, h2]
      refine ⟨trivial, ?_⟩
      push_cast
      omega
    · obtain ⟨h1, h2⟩ := ih hrest n (i + 1) offset
      have e1 : i + n + 1 = i + 1 + n := by omega
      simp only [toCRLF, hlf, hc, if_false, scanRecs, scanOff, e1, h1, h2]
      exact ⟨trivial, trivial⟩

theorem scanRecs_length_of_no_cr (s : List Nat) (hcr : ∀ c ∈ s, c ≠ CR) (i offset : Int) :
    (scanRecs s false i offset).length = s.count LF := by
  have h := scanRecs_length_eq s false i offset
    (fun k hk => absurd rfl (hcr CR (List.getElem?_mem hk))) (by simp)
  simpa using h

theorem shiftFrom_length (recs : List (Int × Int)) :
    ∀ n : Int, (shiftFrom n recs).length = recs.length := by
  induction recs with
  | nil => intro n; rfl
  | cons hd rest ih => intro n; obtain ⟨o, l⟩ := hd; simp [shiftFrom, ih]

theorem shiftFrom_append (xs ys : List (Int × Int)) :
    ∀ n : Int, shiftFrom n (xs ++ ys) = shiftFrom n xs ++ shiftFrom (n + (xs.length : Int)) ys := by
  induction xs with
  | nil => intro n; simp [shiftFrom]
  | cons hd rest ih =>
    intro n
    obtain ⟨o, l⟩ := hd
    have e : n + ((((o, l) :: rest).length : Nat) : Int) = n + 1 + (rest.length : Int) := by
      simp only [List.length_cons]; push_cast; omega
    rw [e]
    simp only [List.cons_append, shiftFrom]
    exact congrArg _ (ih (n + 1))

theorem shiftFrom_getElem? (recs : List (Int × Int)) :
    ∀ (n : Int) (k : Nat) (a : Int × Int), recs[k]? = some a →
      (shiftFrom n recs)[k]? = some (a.1 + (n + (k : Int)), a.2) := by
  induction recs with
  | nil => intro n k a h; simp at h
  | cons hd rest ih =>
    intro n k a h
    obtain ⟨o, l⟩ := hd
    cases k with
    | zero =>
      simp only [List.getElem?_cons_zero, Option.some.injEq] at h
      subst h
      simp [shiftFrom]
    | succ k =>
      simp only [List.getElem?_cons_succ] at h
      have := ih (n + 1) k a h
      simp only [shiftFrom, List.getElem?_cons_succ, this]
      congr 3
      push_cast
      omega

theorem lineRecs_toCRLF (b : List Nat) (hcr : ∀ c ∈ b, c ≠ CR) :
    lineRecs (toCRLF b) = shiftFrom 0 (lineRecs b) := by
  obtain ⟨h1, h2⟩ := scan_toCRLF b hcr 0 0 0
  simp only [add_zero] at h1 h2
  have hlen := scanRecs_length_of_no_cr b hcr 0 0
  unfold lineRecs
  rw [shiftFrom_append, h1, h2]
  by_cases hlast : b.getLast? = some LF
  · simp [hlast, (toCRLF_getLast b).mpr hlast, shiftFrom]
  · have hlast2 : ¬ (toCRLF b).getLast? = some LF := fun h => hlast ((toCRLF_getLast b).mp h)
    simp only [hlast, hlast2, if_false, shiftFrom, toCRLF_length, hlen]
    congr 3
    · omega
    · push_cast
      omega

theorem lineCount_toCRLF (b : List Nat) : lineCount (toCRLF b) = lineCount b := by
  unfold lineCount
  rw [toCRLF_count]
  by_cases hlast : b.getLast? = some LF
  · simp [hlast, (toCRLF_getLast b).mpr hlast]
  · have hlast2 : ¬ (toCRLF b).getLast? = some LF := fun h => hlast ((toCRLF_getLast b).mp h)
    simp [hlast, hlast2]

/-! ## Reconstruction of the buffer from the records -/

theorem readByte_mem (data : List Nat) (i : Int) (c : Nat) (h : readByte data i = .ok c) :
    c ∈ data := by
  have hd := drop_of_readByte data i c h
  exact List.mem_of_mem_drop (n := i.toNat) (by rw [hd]; exact List.mem_cons_self _ _)

theorem reconstruct_of_recs (data : List Nat) (hL : 1 ≤ data.length)
    (hcr : ∀ c ∈ data, c ≠ CR) :
    ∀ (recs : List (Int × Int)) (offset : Int), 0 ≤ offset → Recs data offset recs →
      reconstruct data recs =
        data.drop offset.toNat ++ (if data.getLast? = some LF then [] else [LF]) := by
  intro recs
  induction recs with
  | nil =>
    intro offset h0 h
    simp only [Recs] at h
    obtain ⟨hlast, hnd⟩ := h
    have hge : (data.length : Int) - 1 < offset := by
      by_contra hlt
      obtain ⟨c, hc, hne, _⟩ := hnd ((data.length : Int) - 1) (by omega) (by omega)
      rw [hlast] at hc
      cases hc
      exact hne rfl
    have hdrop : data.drop offset.toNat = [] := List.drop_eq_nil_iff.mpr (by omega)
    simp [reconstruct, hdrop, (readByte_last data hL LF).mp hlast]
  | cons hd rest ih =>
    obtain ⟨o, l⟩ := hd
    intro offset h0 h
    simp only [Recs] at h
    obtain ⟨ho, h⟩ := h
    subst ho
    rcases h with ⟨hrest, hl, ⟨c, hc, hne⟩, _⟩ | ⟨hl, _, h⟩
    · subst hrest
      have hlast : ¬ data.getLast? = some LF := by
        rw [(readByte_last data hL c).mp hc]
        intro h; cases h; exact hne rfl
      have htake : slice data (o, l) = data.drop o.toNat := by
        unfold slice
        apply List.take_of_length_le
        simp only [List.length_drop]
        omega
      simp [reconstruct, htake, hlast]
    · rcases h with ⟨hrd, h⟩ | ⟨hrd, _⟩
      · have hd := drop_of_readByte data (o + l) LF hrd
        have hsplit : data.drop o.toNat = slice data (o, l) ++ data.drop (o + l).toNat := by
          unfold slice
          have e : (o + l).toNat = o.toNat + l.toNat := by omega
          rw [e, ← List.drop_drop, List.take_append_drop]
        rw [hsplit, hd]
        simp only [reconstruct, ih (o + l + 1) (by omega) h, List.append_assoc,
          List.cons_append]
      · exact absurd rfl (hcr CR (readByte_mem data _ _ hrd))

theorem slice_no_delimiter (data : List Nat) (r : Int × Int) (h0 : 0 ≤ r.1)
    (hnd : ∀ k, r.1 ≤ k → k < r.1 + r.2 → nonDelimAt data k) :
    ∀ x ∈ slice data r, x ≠ LF ∧ x ≠ CR := by
  intro x hx
  unfold slice at hx
  obtain ⟨j, hj, hget⟩ := List.mem_take_iff_getElem.mp hx
  have hj1 : j < r.2.toNat := by omega
  have hj2 : j < (data.drop r.1.toNat).length := by omega
  obtain ⟨c, hc, hne⟩ := hnd (r.1 + (j : Int)) (by omega) (by omega)
  have hidx : (r.1 + (j : Int)).toNat = r.1.toNat + j := by omega
  have hlt : r.1.toNat + j < data.length := by
    simp only [List.length_drop] at hj2; omega
  have hcx : c = x := by
    have h0j : 0 ≤ r.1 + (j : Int) := by omega
    simp only [readByte, h0j, if_true, hidx, List.getElem?_eq_getElem hlt] at hc
    cases hc
    rw [← hget, List.getElem_drop]
  rw [← hcx]
  exact hne

/-! ## The counting loop under the parallel for -/

theorem sum_map_set (f : Worker → Nat) :
    ∀ (ws : List Worker) (t : Nat) (w w' : Worker), ws[t]? = some w →
      ((ws.set t w').map f).sum + f w = (ws.map f).sum + f w' := by
  intro ws
  induction ws with
  | nil => intro t w w' h; simp at h
  | cons hd rest ih =>
    intro t w w' h
    cases t with
    | zero =>
      simp only [List.getElem?_cons_zero, Option.some.injEq] at h
      subst h
      simp only [List.set_cons_zero, List.map_cons, List.sum_cons]
      omega
    | succ t =>
      simp only [List.getElem?_cons_succ] at h
      have := ih t w w' h
      simp only [List.set_cons_succ, List.map_cons, List.sum_cons]
      omega

theorem pendingLF_step (data : List Nat) (i hi : Int) (r r' : Option Int) (c : Nat)
    (hlt : i < hi) (hc : readByte data i = .ok c) :
    pendingLF data ⟨i, hi, r⟩ = (if c = LF then 1 else 0) + pendingLF data ⟨i + 1, hi, r'⟩ := by
  have h0 := (readByte_bounds data i c hc).1
  have hd := drop_of_readByte data i c hc
  have hn : (hi - i).toNat = (hi - (i + 1)).toNat + 1 := by omega
  simp only [pendingLF, hd, hn, List.take_succ_cons, List.count_cons]
  by_cases hlf : c = LF
  · simp [hlf]; omega
  · simp [hlf]

theorem pendingLF_reg (data : List Nat) (i hi : Int) (r r' : Option Int) :
    pendingLF data ⟨i, hi, r⟩ = pendingLF data ⟨i, hi, r'⟩ := rfl

theorem par_step_inv (data : List Nat) (bound : Int) (st : ParState) (t : Nat)
    (hinv : ParInv data bound st) :
    ∃ st', par_step data st t = .ok st' ∧ ParInv data bound st' := by
  obtain ⟨ws_bounds, ws_reg, hnum⟩ := hinv
  obtain ⟨n, ws⟩ := st
  simp only at ws_bounds ws_reg hnum
  cases hget : ws[t]? with
  | none => exact ⟨⟨n, ws⟩, by simp [par_step, hget], ws_bounds, ws_reg, hnum⟩
  | some w =>
    have hmem : w ∈ ws := List.getElem?_mem hget
    obtain ⟨hi0, hiL⟩ := ws_bounds w hmem
    have hwreg := ws_reg w hmem
    obtain ⟨i, hi, reg⟩ := w
    simp only at hi0 hiL hwreg
    have hsum := fun w' => sum_map_set (pendingLF data) ws t ⟨i, hi, reg⟩ w' hget
    cases reg with
    | some v =>
      obtain ⟨hlt, hrd, hv⟩ := hwreg v rfl
      have hpend := pendingLF_step data i hi (some v) none LF hlt hrd
      simp only [if_true] at hpend
      have hS := hsum ⟨i + 1, hi, none⟩
      refine ⟨⟨v + 1, ws.set t ⟨i + 1, hi, none⟩⟩, by simp [par_step, hget, worker_step], ?_, ?_, ?_⟩
      · intro u hu
        rcases List.mem_or_eq_of_mem_set hu with hu | hu
        · exact ws_bounds u hu
        · subst hu; exact ⟨by simp only; omega, hiL⟩
      · intro u hu vu hvu
        rcases List.mem_or_eq_of_mem_set hu with hu | hu
        · obtain ⟨h1, h2, h3⟩ := ws_reg u hu vu hvu
          refine ⟨h1, h2, ?_⟩
          simp only [pendingTotal] at h3 ⊢
          omega
        · subst hu; simp at hvu
      · simp only [pendingTotal] at hv ⊢
        omega
    | none =>
      by_cases hlt : i < hi
      · obtain ⟨c, hc⟩ := readByte_ok_of_lt data i hi0 (by omega)
        by_cases hlf : c = LF
        · have hS := hsum ⟨i, hi, some n⟩
          rw [pendingLF_reg data i hi (some n) none] at hS
          refine ⟨⟨n, ws.set t ⟨i, hi, some n⟩⟩,
            by simp [par_step, hget, worker_step, hlt, hc, hlf], ?_, ?_, ?_⟩
          · intro u hu
            rcases List.mem_or_eq_of_mem_set hu with hu | hu
            · exact ws_bounds u hu
            · subst hu; exact ⟨hi0, hiL⟩
          · intro u hu vu hvu
            rcases List.mem_or_eq_of_mem_set hu with hu | hu
            · obtain ⟨h1, h2, h3⟩ := ws_reg u hu vu hvu
              refine ⟨h1, h2, ?_⟩
              simp only [pendingTotal] at h3 ⊢
              omega
            · subst hu
              simp only [Option.some.injEq] at hvu
              subst hvu
              refine ⟨hlt, by rw [hc, hlf], ?_⟩
              simp only [pendingTotal] at hnum ⊢
              omega
          · simp only [pendingTotal] at hnum ⊢
            omega
        · have hpend := pendingLF_step data i hi none none c hlt hc
          simp only [hlf, if_false, zero_add] at hpend
          have hS := hsum ⟨i + 1, hi, none⟩
          refine ⟨⟨n, ws.set t ⟨i + 1, hi, none⟩⟩,
            by simp [par_step, hget, worker_step, hlt, hc, hlf], ?_, ?_, ?_⟩
          · intro u hu
            rcases List.mem_or_eq_of_mem_set hu with hu | hu
            · exact ws_bounds u hu
            · subst hu; exact ⟨by simp only; omega, hiL⟩
          · intro u hu vu hvu
            rcases List.mem_or_eq_of_mem_set hu with hu | hu
            · obtain ⟨h1, h2, h3⟩ := ws_reg u hu vu hvu
              refine ⟨h1, h2, ?_⟩
              simp only [pendingTotal] at h3 ⊢
              omega
            · subst hu; simp at hvu
          · simp only [pendingTotal] at hnum ⊢
            omega
      · have hS := hsum ⟨i, hi, none⟩
        refine ⟨⟨n, ws.set t ⟨i, hi, none⟩⟩,
          by simp [par_step, hget, worker_step, hlt], ?_, ?_, ?_⟩
        · intro u hu
          rcases List.mem_or_eq_of_mem_set hu with hu | hu
          · exact ws_bounds u hu
          · subst hu; exact ⟨hi0, hiL⟩
        · intro u hu vu hvu
          rcases List.mem_or_eq_of_mem_set hu with hu | hu
          · obtain ⟨h1, h2, h3⟩ := ws_reg u hu vu hvu
            refine ⟨h1, h2, ?_⟩
            simp only [pendingTotal] at h3 ⊢
            omega
          · subst hu; simp at hvu
        · simp only [pendingTotal] at hnum ⊢
          omega

theorem par_run_inv (data : List Nat) (bound : Int) :
    ∀ (sched : List Nat) (st : ParState), ParInv data bound st →
      ∃ st', par_run data sched st = .ok st' ∧ ParInv data bound st' := by
  intro sched
  induction sched with
  | nil => intro st hinv; exact ⟨st, rfl, hinv⟩
  | cons t rest ih =>
    intro st hinv
    obtain ⟨st1, hstep, hinv1⟩ := par_step_inv data bound st t hinv
    obtain ⟨st2, hrun, hinv2⟩ := ih st1 hinv1
    exact ⟨st2, by simp [par_run, hstep, hrun], hinv2⟩

theorem chunkWorkers_bounds (data : List Nat) :
    ∀ (sizes : List Nat) (lo : Int), 0 ≤ lo → lo + (sizes.sum : Int) ≤ (data.length : Int) →
      ∀ w ∈ chunkWorkers lo sizes, (0 ≤ w.i ∧ w.hi ≤ (data.length : Int)) ∧ w.reg = none := by
  intro sizes
  induction sizes with
  | nil => intro lo _ _ w hw; simp [chunkWorkers] at hw
  | cons n rest ih =>
    intro lo h0 hsum w hw
    simp only [List.sum_cons, Nat.cast_add] at hsum
    simp only [chunkWorkers, List.mem_cons] at hw
    rcases hw with hw | hw
    · subst hw
      exact ⟨⟨h0, by simp only; omega⟩, rfl⟩
    · exact ih (lo + n) (by omega) (by omega) w hw

theorem pendingTotal_chunkWorkers_le (data : List Nat) :
    ∀ (sizes : List Nat) (lo : Int), 0 ≤ lo →
      pendingTotal data (chunkWorkers lo sizes) ≤ (data.drop lo.toNat).count LF := by
  intro sizes
  induction sizes with
  | nil => intro lo _; simp [chunkWorkers, pendingTotal]
  | cons n rest ih =>
    intro lo h0
    have hrest := ih (lo + n) (by omega)
    have e1 : (lo + (n : Int) - lo).toNat = n := by omega
    have e2 : (lo + (n : Int)).toNat = lo.toNat + n := by omega
    have hsplit : (data.drop lo.toNat).count LF =
        ((data.drop lo.toNat).take n).count LF + (data.drop (lo.toNat + n)).count LF := by
      rw [← List.drop_drop, ← List.count_append, List.take_append_drop]
    simp only [pendingTotal, chunkWorkers, List.map_cons, List.sum_cons, pendingLF, e1] at hrest ⊢
    rw [e2] at hrest
    omega

theorem par_run_chunks (data : List Nat) (chunks sched : List Nat)
    (hsum : chunks.sum = data.length) :
    ∃ st, par_run data sched ⟨0, chunkWorkers 0 chunks⟩ = .ok st ∧
      st.num_lines ≤ ((data.count LF : Nat) : Int) := by
  have hinit : ParInv data (pendingTotal data (chunkWorkers 0 chunks) : Nat)
      ⟨0, chunkWorkers 0 chunks⟩ := by
    refine ⟨?_, ?_, ?_⟩
    · intro w hw
      exact (chunkWorkers_bounds data chunks 0 (le_refl _) (by simp [hsum]) w hw).1
    · intro w hw v hv
      rw [(chunkWorkers_bounds data chunks 0 (le_refl _) (by simp [hsum]) w hw).2] at hv
      cases hv
    · simp
  obtain ⟨st, hrun, _, _, hnum⟩ := par_run_inv data _ sched _ hinit
  refine ⟨st, hrun, ?_⟩
  have hle := pendingTotal_chunkWorkers_le data chunks 0 (le_refl _)
  simp only [Int.toNat_zero, List.drop_zero] at hle
  omega

theorem count_pass_cases (data : List Nat) (hL : 1 ≤ data.length) (chunks sched : List Nat)
    (hsum : chunks.sum = data.length) :
    (∃ n, count_pass data chunks sched = .ok n ∧ n ≤ lineCount data) ∨
      count_pass data chunks sched = .error .outOfFuel := by
  obtain ⟨st, hrun, hle⟩ := par_run_chunks data chunks sched hsum
  obtain ⟨c, hc⟩ := readByte_ok_of_lt data ((data.length : Int) - 1) (by omega) (by omega)
  have hlast := (readByte_last data hL c).mp hc
  by_cases hdone : workers_done st.workers = true
  · left
    by_cases hlf : c = LF
    · exact ⟨st.num_lines, by simp [count_pass, hrun, hdone, hc, hlf],
        by simp [lineCount, hlast, hlf]; exact hle⟩
    · exact ⟨st.num_lines + 1, by simp [count_pass, hrun, hdone, hc, hlf],
        by simp [lineCount, hlast, hlf]; exact hle⟩
  · right
    simp [count_pass, hrun, hdone]

theorem create_lookup_cases (data : List Nat) (hL : 1 ≤ data.length) (chunks sched : List Nat)
    (hsum : chunks.sum = data.length) :
    (∃ n, create_lookup data chunks sched = .ok (n, lineRecs data) ∧ n ≤ lineCount data) ∨
      create_lookup data chunks sched = .error .outOfFuel := by
  rcases count_pass_cases data hL chunks sched hsum with ⟨n, hn, hle⟩ | hfuel
  · left
    exact ⟨n, by simp [create_lookup, hn, extract_pass_eq data hL], hle⟩
  · right
    simp [create_lookup, hfuel]

theorem lineCount_le_lineRecs_length (data : List Nat) :
    lineCount data ≤ ((lineRecs data).length : Int) := by
  have h := scanRecs_length_ge data false 0 0
  simp only [Bool.false_eq_true, if_false, add_zero] at h
  rw [lineRecs_length, lineCount]
  have h2 : ((data.count LF : Nat) : Int) ≤ ((scanRecs data false 0 0).length : Int) := by
    exact_mod_cast h
  omega

/-! ## One worker: the sequential loop -/

theorem par_run_cons (data : List Nat) (t : Nat) (rest : List Nat) (st : ParState) :
    par_run data (t :: rest) st =
      match par_step data st t with
      | .error e => .error e
      | .ok st' => par_run data rest st' := rfl

theorem par_run_idle (data : List Nat) (m hi : Int) :
    ∀ n : Nat, par_run data (List.replicate n 0) ⟨m, [⟨hi, hi, none⟩]⟩ =
      .ok ⟨m, [⟨hi, hi, none⟩]⟩ := by
  intro n
  induction n with
  | zero => rfl
  | succ n ih => simp [List.replicate_succ, par_run, par_step, worker_step, ih]

theorem par_run_single (data : List Nat) :
    ∀ (f n : Nat) (i m : Int), 0 ≤ i → i ≤ (data.length : Int) →
      (data.length : Int) - i ≤ f → 2 * f ≤ n →
      par_run data (List.replicate n 0) ⟨m, [⟨i, data.length, none⟩]⟩ =
        .ok ⟨m + ((data.drop i.toNat).count LF : Nat), [⟨data.length, data.length, none⟩]⟩ := by
  intro f
  induction f with
  | zero =>
    intro n i m h0 hiL hf _
    have hi : i = (data.length : Int) := by omega
    have hdrop : data.drop i.toNat = [] := List.drop_eq_nil_iff.mpr (by omega)
    rw [hdrop, hi]
    simpa using par_run_idle data m data.length n
  | succ f ih =>
    intro n i m h0 hiL hf hn
    by_cases hi : i = (data.length : Int)
    · have hdrop : data.drop i.toNat = [] := List.drop_eq_nil_iff.mpr (by omega)
      rw [hdrop, hi]
      simpa using par_run_idle data m data.length n
    · have hlt : i < (data.length : Int) := by omega
      obtain ⟨c, hc⟩ := readByte_ok_of_lt data i h0 hlt
      have hd := drop_of_readByte data i c hc
      obtain ⟨n', rfl⟩ : ∃ n', n = n' + 1 + 1 := ⟨n - 2, by omega⟩
      by_cases hlf : c = LF
      · have hnext := ih n' (i + 1) (m + 1) (by omega) (by omega) (by omega) (by omega)
        have hstep1 : par_step data ⟨m, [⟨i, data.length, none⟩]⟩ 0 =
            .ok ⟨m, [⟨i, data.length, some m⟩]⟩ := by
          simp [par_step, worker_step, hlt, hc, hlf]
        have hstep2 : par_step data ⟨m, [⟨i, data.length, some m⟩]⟩ 0 =
            .ok ⟨m + 1, [⟨i + 1, data.length, none⟩]⟩ := by
          simp [par_step, worker_step]
        have e : List.replicate (n' + 1 + 1) 0 = 0 :: 0 :: List.replicate n' 0 := rfl
        rw [hd, hlf, List.count_cons_self, e, par_run_cons, hstep1]
        dsimp only
        rw [par_run_cons, hstep2]
        dsimp only
        rw [hnext]
        congr 2
        push_cast
        omega
      · have hnext := ih (n' + 1) (i + 1) m (by omega) (by omega) (by omega) (by omega)
        have hstep : par_step data ⟨m, [⟨i, data.length, none⟩]⟩ 0 =
            .ok ⟨m, [⟨i + 1, data.length, none⟩]⟩ := by
          simp [par_step, worker_step, hlt, hc, hlf]
        have e : List.replicate (n' + 1 + 1) 0 = 0 :: List.replicate (n' + 1) 0 := rfl
        rw [hd, List.count_cons_of_ne (fun h => hlf h.symm), e, par_run_cons, hstep]
        exact hnext

theorem count_pass_single_worker (data : List Nat) :
    count_pass data [data.length] (List.replicate (2 * data.length) 0) = count_pass_seq data := by
  have hrun := par_run_single data data.length (2 * data.length) 0 0 (le_refl _) (by omega)
    (by omega) (le_refl _)
  have hloop := count_loop_eq data data.length 0 0 (le_refl _) (by omega)
  simp only [Int.toNat_zero, List.drop_zero, zero_add] at hrun hloop
  simp [count_pass, count_pass_seq, chunkWorkers, hrun, hloop, workers_done]

theorem create_lookup_single_worker (data : List Nat) :
    create_lookup data [data.length] (List.replicate (2 * data.length) 0) =
      create_lookup_seq data := by
  simp [create_lookup, create_lookup_seq, count_pass_single_worker]

/-! ## Gaps between records when every carriage return is followed by a line feed -/

theorem readByte_iff_getElem? (data : List Nat) (i : Int) (c : Nat) (h0 : 0 ≤ i) :
    readByte data i = .ok c ↔ data[i.toNat]? = some c := by
  simp only [readByte, h0, if_true]
  cases data[i.toNat]? with
  | none => simp
  | some x => simp

theorem gap_delimiters_of_crlf (data : List Nat) (hL : 1 ≤ data.length)
    (hcrlf : ∀ k : Nat, data[k]? = some CR → data[k + 1]? = some LF) :
    ∃ recs, extract_pass data = .ok recs ∧
      ∀ (k : Nat) (a b : Int × Int), recs[k]? = some a → recs[k + 1]? = some b →
        ∀ p : Int, a.1 + a.2 ≤ p → p < b.1 →
          ∃ c, readByte data p = .ok c ∧ (c = LF ∨ c = CR) := by
  obtain ⟨recs, hrun, hrec⟩ := extract_pass_recs data hL
  refine ⟨recs, hrun, ?_⟩
  intro k a b ha hb p h1 h2
  obtain ⟨_, h⟩ := recs_pair data recs 0 hrec k a b ha hb
  rcases h with ⟨hrd, h⟩ | ⟨hrd, h⟩
  · have hp : p = a.1 + a.2 := by omega
    exact ⟨LF, by rw [hp]; exact hrd, Or.inl rfl⟩
  · by_cases hp : p = a.1 + a.2
    · exact ⟨CR, by rw [hp]; exact hrd, Or.inr rfl⟩
    · have hp1 : p = a.1 + a.2 + 1 := by omega
      have h0 := (readByte_bounds data _ _ hrd).1
      have hnext := hcrlf _ ((readByte_iff_getElem? data _ CR h0).mp hrd)
      have hidx : (a.1 + a.2 + 1).toNat = (a.1 + a.2).toNat + 1 := by omega
      refine ⟨LF, ?_, Or.inl rfl⟩
      rw [hp1, readByte_iff_getElem? data _ LF (by omega), hidx]
      exact hnext

/-! ## Relations that hold when the counting loop is sequential -/

/-- Trailing-newline insensitivity of the sequential execution: for every
non-empty buffer `b` whose last byte is neither `'\n'` nor `'\r'`,
`create_lookup_seq` returns the same row count and the same record list on `b`
and on `b` followed by one `'\n'`. -/
theorem trailing_newline_insensitive_seq (b : List Nat) (hne : b ≠ [])
    (hlast : ∀ x, b.getLast? = some x → x ≠ LF ∧ x ≠ CR) :
    ∃ r, create_lookup_seq b = .ok r ∧ create_lookup_seq (b ++ [LF]) = .ok r := by
  rcases List.eq_nil_or_concat b with h | ⟨b0, x, h⟩
  · exact absurd h hne
  · rw [List.concat_eq_append] at h
    subst h
    obtain ⟨hxlf, hxcr⟩ := hlast x (List.getLast?_concat b0)
    obtain ⟨hskip, hrecs, hoff⟩ := scan_last_not_delim b0 x hxcr hxlf
    have hL1 : 1 ≤ (b0 ++ [x]).length := by simp
    have hL2 : 1 ≤ (b0 ++ [x] ++ [LF]).length := by simp
    refine ⟨_, create_lookup_eq _ hL1, ?_⟩
    rw [create_lookup_eq _ hL2]
    have hx : ¬ x = LF := hxlf
    have hx2 : ¬ LF = x := fun h => hxlf h.symm
    have hcount : lineCount (b0 ++ [x] ++ [LF]) = lineCount (b0 ++ [x]) := by
      simp [lineCount, List.getLast?_concat, List.count_append, hx, hx2, List.count_cons]
    have hlines : lineRecs (b0 ++ [x] ++ [LF]) = lineRecs (b0 ++ [x]) := by
      have hne2 : ¬ LF = CR := by decide
      unfold lineRecs
      rw [List.getLast?_concat (b0 ++ [x]), List.getLast?_concat b0,
        scanRecs_append (b0 ++ [x]) [LF], hskip]
      simp [scanRecs, hx]
    rw [hcount, hlines]

/-- LF/CRLF equivalence of the sequential execution: for every non-empty
buffer `b` without `'\r'`, `create_lookup_seq` returns the same row count and
the same number of records on `b` and on `toCRLF b`; the `k`-th records have
equal lengths and the `k`-th offset for `toCRLF b` is the `k`-th offset for
`b` plus `k`. -/
theorem lf_crlf_equivalence_seq (b : List Nat) (hne : b ≠ []) (hcr : ∀ c ∈ b, c ≠ CR) :
    ∃ num_lines recs recs', create_lookup_seq b = .ok (num_lines, recs) ∧
      create_lookup_seq (toCRLF b) = .ok (num_lines, recs') ∧
      recs'.length = recs.length ∧
      ∀ (k : Nat) (a : Int × Int), recs[k]? = some a →
        recs'[k]? = some (a.1 + (k : Int), a.2) := by
  have hL : 1 ≤ b.length := by
    cases b with
    | nil => exact absurd rfl hne
    | cons c rest => simp
  have hL2 : 1 ≤ (toCRLF b).length := by rw [toCRLF_length]; omega
  refine ⟨lineCount b, lineRecs b, lineRecs (toCRLF b), create_lookup_eq b hL, ?_, ?_, ?_⟩
  · rw [create_lookup_eq _ hL2, lineCount_toCRLF]
  · rw [lineRecs_toCRLF b hcr, shiftFrom_length]
  · intro k a ha
    rw [lineRecs_toCRLF b hcr, shiftFrom_getElem? _ 0 k a ha, zero_add]

/-- Agreement of the passes in the sequential execution: for every buffer of
length at least one in which every `'\r'` is immediately followed by a `'\n'`,
the number of records the extraction pass writes equals the row count of the
sequential counting pass. -/
theorem record_count_eq_num_lines_seq (data : List Nat) (hL : 1 ≤ data.length)
    (hcrlf : ∀ k : Nat, data[k]? = some CR → data[k + 1]? = some LF) :
    ∃ num_lines recs, count_pass_seq data = .ok num_lines ∧ extract_pass data = .ok recs ∧
      create_lookup_seq data = .ok (num_lines, recs) ∧ (recs.length : Int) = num_lines := by
  refine ⟨_, _, count_pass_eq_lineCount data hL, extract_pass_eq data hL,
    create_lookup_eq data hL, ?_⟩
  have h := scanRecs_length_eq data false 0 0 hcrlf (by simp)
  simp only [Bool.false_eq_true, if_false, add_zero] at h
  rw [lineRecs_length, h, lineCount]

/-! ## The claims -/

/-- C1 (evaluation at a failing input).  On the three bytes `a`, `'\r'`, `b`
the counting pass computes `num_lines = 1` (no `'\n'`, last byte not `'\n'`),
while the extraction pass writes the two records `(0,1)` and `(3,0)`: the
number of records is not the row count of the table.  This is so for the
sequential counting loop and for the counting loop run by two workers. -/
theorem count_and_extract_disagree_on_lone_cr :
    count_pass_seq [97, 13, 98] = .ok 1 ∧
      extract_pass [97, 13, 98] = .ok [(0, 1), (3, 0)] ∧
      create_lookup_seq [97, 13, 98] = .ok (1, [(0, 1), (3, 0)]) ∧
      create_lookup [97, 13, 98] [2, 1] [0, 0, 1] = .ok (1, [(0, 1), (3, 0)]) :=
  ⟨rfl, rfl, rfl, rfl⟩

/-- C2.  For every buffer of length at least one the extraction pass returns
a record list in which consecutive records never overlap:
`offset[k] + length[k] ≤ offset[k+1]`. -/
theorem records_never_overlap (data : List Nat) (hL : 1 ≤ data.length) :
    ∃ recs, extract_pass data = .ok recs ∧
      ∀ (k : Nat) (a b : Int × Int), recs[k]? = some a → recs[k + 1]? = some b →
        a.1 + a.2 ≤ b.1 := by
  obtain ⟨recs, hrun, hrec⟩ := extract_pass_recs data hL
  refine ⟨recs, hrun, ?_⟩
  intro k a b ha hb
  obtain ⟨_, h⟩ := recs_pair data recs 0 hrec k a b ha hb
  rcases h with ⟨_, h⟩ | ⟨_, h⟩ <;> omega

/-- Witness of C2 on the four bytes `a`, `'\r'`, `'\n'`, `b`. -/
theorem records_never_overlap_witness :
    1 ≤ [97, 13, 10, 98].length ∧
      ∃ recs, extract_pass [97, 13, 10, 98] = .ok recs ∧
        ∀ (k : Nat) (a b : Int × Int), recs[k]? = some a → recs[k + 1]? = some b →
          a.1 + a.2 ≤ b.1 :=
  ⟨by decide, records_never_overlap [97, 13, 10, 98] (by decide)⟩

/-- C3.  For every buffer of length at least one the extraction pass returns
a record list whose offsets are strictly increasing, the final record of an
unterminated last line included. -/
theorem offsets_strictly_increasing (data : List Nat) (hL : 1 ≤ data.length) :
    ∃ recs, extract_pass data = .ok recs ∧
      ∀ (k : Nat) (a b : Int × Int), recs[k]? = some a → recs[k + 1]? = some b →
        a.1 < b.1 := by
  obtain ⟨recs, hrun, hrec⟩ := extract_pass_recs data hL
  refine ⟨recs, hrun, ?_⟩
  intro k a b ha hb
  obtain ⟨h0, h⟩ := recs_pair data recs 0 hrec k a b ha hb
  rcases h with ⟨_, h⟩ | ⟨_, h⟩ <;> omega

/-- Witness of C3 on the buffer `a`, `'\n'`, `b` (unterminated last line). -/
theorem offsets_strictly_increasing_witness :
    1 ≤ [97, 10, 98].length ∧
      ∃ recs, extract_pass [97, 10, 98] = .ok recs ∧
        ∀ (k : Nat) (a b : Int × Int), recs[k]? = some a → recs[k + 1]? = some b →
          a.1 < b.1 :=
  ⟨by decide, offsets_strictly_increasing [97, 10, 98] (by decide)⟩

/-- C4.  For every buffer of length at least one and every record `(o, l)`
the extraction pass returns, every index `k` with `o ≤ k < o + l` is an index
of the buffer and the byte there is neither `'\n'` nor `'\r'`. -/
theorem record_content_has_no_delimiter (data : List Nat) (hL : 1 ≤ data.length) :
    ∃ recs, extract_pass data = .ok recs ∧
      ∀ r ∈ recs, ∀ k : Int, r.1 ≤ k → k < r.1 + r.2 →
        ∃ c, readByte data k = .ok c ∧ c ≠ LF ∧ c ≠ CR := by
  obtain ⟨recs, hrun, hrec⟩ := extract_pass_recs data hL
  refine ⟨recs, hrun, ?_⟩
  intro r hr k h1 h2
  exact (recs_mem data recs 0 hrec r hr).2.2 k h1 h2

/-- Witness of C4 on the buffer `a`, `b`, `'\r'`, `'\n'`, `c`. -/
theorem record_content_has_no_delimiter_witness :
    1 ≤ [97, 98, 13, 10, 99].length ∧
      ∃ recs, extract_pass [97, 98, 13, 10, 99] = .ok recs ∧
        ∀ r ∈ recs, ∀ k : Int, r.1 ≤ k → k < r.1 + r.2 →
          ∃ c, readByte [97, 98, 13, 10, 99] k = .ok c ∧ c ≠ LF ∧ c ≠ CR :=
  ⟨by decide, record_content_has_no_delimiter [97, 98, 13, 10, 99] (by decide)⟩

/-- C5 (evaluation at a failing input).  On the two bytes `a`, `'\r'` the
extraction pass writes the records `(0,1)` and `(3,-1)`: the final record has
a negative length (and an offset past the end of the buffer). -/
theorem trailing_cr_gives_negative_length :
    extract_pass [97, 13] = .ok [(0, 1), (3, -1)] ∧ count_pass_seq [97, 13] = .ok 1 :=
  ⟨rfl, rfl⟩

/-- C6.  For every buffer of length `L ≥ 1` the extraction pass returns a
non-empty record list, and its last record, like every record of the list,
satisfies `offset + length ≤ L`. -/
theorem records_end_within_buffer (data : List Nat) (hL : 1 ≤ data.length) :
    ∃ recs, extract_pass data = .ok recs ∧ recs ≠ [] ∧
      (∀ r, recs.getLast? = some r → r.1 + r.2 ≤ (data.length : Int)) ∧
      ∀ r ∈ recs, r.1 + r.2 ≤ (data.length : Int) := by
  obtain ⟨recs, hrun, hrec⟩ := extract_pass_recs data hL
  have hall : ∀ r ∈ recs, r.1 + r.2 ≤ (data.length : Int) :=
    fun r hr => (recs_mem data recs 0 hrec r hr).2.1
  refine ⟨recs, hrun, ?_, fun r hr => hall r (List.mem_of_getLast?_eq_some hr), hall⟩
  intro hnil
  subst hnil
  exact recs_ne_nil data 0 (by omega) hrec

/-- Witness of C6 on the one-byte buffer `'\r'`. -/
theorem records_end_within_buffer_witness :
    1 ≤ [13].length ∧
      ∃ recs, extract_pass [13] = .ok recs ∧ recs ≠ [] ∧
        (∀ r, recs.getLast? = some r → r.1 + r.2 ≤ (([13] : List Nat).length : Int)) ∧
        ∀ r ∈ recs, r.1 + r.2 ≤ (([13] : List Nat).length : Int) :=
  ⟨by decide, records_end_within_buffer [13] (by decide)⟩

/-- C7 (evaluation at a failing input).  On the four bytes `a`, `'\r'`, `b`,
`'\n'` the extraction pass returns the records `(0,1)` and `(3,0)`; the gap
between them is `[1, 3)`, and position `2` of it holds `b`, which is not a
delimiter. -/
theorem gap_may_hold_non_delimiter :
    extract_pass [97, 13, 98, 10] = .ok [(0, 1), (3, 0)] ∧
      ¬ ∀ (k : Nat) (a b : Int × Int),
          ([(0, 1), (3, 0)] : List (Int × Int))[k]? = some a →
          ([(0, 1), (3, 0)] : List (Int × Int))[k + 1]? = some b →
          ∀ p : Int, a.1 + a.2 ≤ p → p < b.1 →
            ∃ c, readByte [97, 13, 98, 10] p = .ok c ∧ (c = LF ∨ c = CR) := by
  refine ⟨rfl, ?_⟩
  intro h
  obtain ⟨c, hc, hd⟩ := h 0 (0, 1) (3, 0) rfl rfl 2 (by decide) (by decide)
  have h98 : readByte [97, 13, 98, 10] 2 = .ok 98 := rfl
  rw [h98] at hc
  cases hc
  rcases hd with hd | hd
  · exact absurd hd (by decide)
  · exact absurd hd (by decide)

/-- C8 (evaluation at a failing input).  On Scenario A, `"a,b\nc,d\n"`, with
the counting loop run by two workers on the index ranges `[0, 4)` and
`[4, 8)`: when both workers load `num_lines` before either stores it back,
`create_lookup` returns the row count `1` with the records `(0,3)`, `(4,3)`;
when the workers run one after the other it returns the row count `2`.  With
a sequential counting loop Scenarios A, C and D give the listed values. -/
theorem scenario_a_row_count_depends_on_schedule :
    create_lookup [97, 44, 98, 10, 99, 44, 100, 10] [4, 4] [0, 0, 0, 0, 1, 1, 1, 1, 0, 1] =
        .ok (1, [(0, 3), (4, 3)]) ∧
      create_lookup [97, 44, 98, 10, 99, 44, 100, 10] [4, 4] [0, 0, 0, 0, 0, 1, 1, 1, 1, 1] =
        .ok (2, [(0, 3), (4, 3)]) ∧
      create_lookup_seq [97, 44, 98, 10, 99, 44, 100, 10] = .ok (2, [(0, 3), (4, 3)]) ∧
      create_lookup_seq [97, 44, 98, 13, 10, 99, 44, 100, 13, 10] = .ok (2, [(0, 3), (5, 3)]) ∧
      create_lookup_seq [10] = .ok (1, [(0, 0)]) :=
  ⟨rfl, rfl, rfl, rfl, rfl⟩

/-- C9 (evaluation at the failing input).  On the empty buffer the first
statement after the counting loop reads `data[length-1]`, that is `data[-1]`:
`create_lookup` faults with an out-of-bounds read at index `-1` and returns
no table, with a sequential counting loop and with two workers (whose index
ranges are empty) alike; so does each pass run on its own. -/
theorem create_lookup_empty_reads_out_of_bounds :
    create_lookup_seq [] = .error (.outOfBounds (-1)) ∧
      count_pass_seq [] = .error (.outOfBounds (-1)) ∧
      extract_pass [] = .error (.outOfBounds (-1)) ∧
      count_pass [] [0, 0] [0, 1] = .error (.outOfBounds (-1)) ∧
      create_lookup [] [0, 0] [0, 1] = .error (.outOfBounds (-1)) :=
  ⟨rfl, rfl, rfl, rfl, rfl⟩

/-- C10.  A read `data[i]` succeeds exactly when `0 ≤ i < L`, and for every
buffer of length `L ≥ 1` both passes, and with them `create_lookup`, run to
completion without a faulting read (and within their iteration budget) when
the counting loop is sequential or run by one worker; and whatever the chunks
and the schedule of the parallel counting loop, the counting pass and
`create_lookup` either return a result or stop because the schedule ends
before the workers are done, never on a faulting read: every index the two
passes read lies in `[0, L)`. -/
theorem create_lookup_reads_in_bounds (data : List Nat) (hL : 1 ≤ data.length) :
    (∀ i : Int, (∃ c, readByte data i = .ok c) ↔ (0 ≤ i ∧ i < (data.length : Int))) ∧
      (∃ num_lines recs, count_pass_seq data = .ok num_lines ∧ extract_pass data = .ok recs ∧
        create_lookup_seq data = .ok (num_lines, recs) ∧
        create_lookup data [data.length] (List.replicate (2 * data.length) 0) =
          .ok (num_lines, recs)) ∧
      ∀ chunks sched : List Nat, chunks.sum = data.length →
        (∃ n recs, count_pass data chunks sched = .ok n ∧ extract_pass data = .ok recs ∧
          create_lookup data chunks sched = .ok (n, recs)) ∨
        (count_pass data chunks sched = .error .outOfFuel ∧
          create_lookup data chunks sched = .error .outOfFuel) := by
  refine ⟨fun i => ⟨fun ⟨c, hc⟩ => readByte_bounds data i c hc,
    fun h => readByte_ok_of_lt data i h.1 h.2⟩, ?_, ?_⟩
  · obtain ⟨recs, hrun, _⟩ := extract_pass_recs data hL
    obtain ⟨c, _, hcount⟩ := count_pass_eq data hL
    have hseq : create_lookup_seq data =
        .ok (((data.count LF : Nat) : Int) + (if c ≠ LF then 1 else 0), recs) := by
      simp [create_lookup_seq, hcount, hrun]
    exact ⟨_, recs, hcount, hrun, hseq, by rw [create_lookup_single_worker, hseq]⟩
  · intro chunks sched hsum
    rcases count_pass_cases data hL chunks sched hsum with ⟨n, hn, _⟩ | hfuel
    · left
      exact ⟨n, lineRecs data, hn, extract_pass_eq data hL,
        by simp [create_lookup, hn, extract_pass_eq data hL]⟩
    · right
      exact ⟨hfuel, by simp [create_lookup, hfuel]⟩

/-- Witness of C10 on the two bytes `a`, `'\r'` (a `'\r'` as the very last
byte). -/
theorem create_lookup_reads_in_bounds_witness :
    1 ≤ [97, 13].length ∧
      ((∀ i : Int, (∃ c, readByte [97, 13] i = .ok c) ↔
          (0 ≤ i ∧ i < (([97, 13] : List Nat).length : Int))) ∧
        (∃ num_lines recs, count_pass_seq [97, 13] = .ok num_lines ∧
          extract_pass [97, 13] = .ok recs ∧
          create_lookup_seq [97, 13] = .ok (num_lines, recs) ∧
          create_lookup [97, 13] [([97, 13] : List Nat).length]
            (List.replicate (2 * ([97, 13] : List Nat).length) 0) = .ok (num_lines, recs)) ∧
        ∀ chunks sched : List Nat, chunks.sum = ([97, 13] : List Nat).length →
          (∃ n recs, count_pass [97, 13] chunks sched = .ok n ∧
            extract_pass [97, 13] = .ok recs ∧
            create_lookup [97, 13] chunks sched = .ok (n, recs)) ∨
          (count_pass [97, 13] chunks sched = .error .outOfFuel ∧
            create_lookup [97, 13] chunks sched = .error .outOfFuel)) :=
  ⟨by decide, create_lookup_reads_in_bounds [97, 13] (by decide)⟩

/-- C11.  For every buffer of length `L ≥ 1` the counting loop, run
sequentially over the whole buffer, returns the number of `'\n'` bytes of the
buffer, and the counting pass returns that number plus one exactly when the
byte at index `L - 1` is not `'\n'`. -/
theorem count_pass_counts_newlines (data : List Nat) (hL : 1 ≤ data.length) :
    count_loop data data.length data.length 0 0 = .ok ((data.count LF : Nat) : Int) ∧
      ∃ c, readByte data ((data.length : Int) - 1) = .ok c ∧
        count_pass_seq data = .ok ((data.count LF : Nat) + if c ≠ LF then 1 else 0) := by
  refine ⟨?_, count_pass_eq data hL⟩
  have hloop := count_loop_eq data data.length 0 0 (le_refl _) (by omega)
  simpa using hloop

/-- Witness of C11 on the buffer `'\n'`, `a`, `'\n'`, `b`. -/
theorem count_pass_counts_newlines_witness :
    1 ≤ [10, 97, 10, 98].length ∧
      (count_loop [10, 97, 10, 98] ([10, 97, 10, 98] : List Nat).length
          [10, 97, 10, 98].length 0 0 = .ok ((([10, 97, 10, 98] : List Nat).count LF : Nat) : Int) ∧
        ∃ c, readByte [10, 97, 10, 98] ((([10, 97, 10, 98] : List Nat).length : Int) - 1) = .ok c ∧
          count_pass_seq [10, 97, 10, 98] =
            .ok ((([10, 97, 10, 98] : List Nat).count LF : Nat) + if c ≠ LF then 1 else 0)) :=
  ⟨by decide, count_pass_counts_newlines [10, 97, 10, 98] (by decide)⟩

/-- C12 (evaluation at a failing input).  On the two bytes `'\n'`, `'\n'`
with one worker on the index range `[0, 1)` and one on `[1, 2)`, the schedule
in which both workers load `num_lines` before either stores it back ends with
every worker finished and `num_lines = 1`; the schedule in which the workers
run one after the other ends with `num_lines = 2`, the value of the sequential
loop.  The count depends on the interleaving. -/
theorem parallel_count_depends_on_schedule :
    par_run [10, 10] [0, 1, 0, 1] ⟨0, [⟨0, 1, none⟩, ⟨1, 2, none⟩]⟩ =
        .ok ⟨1, [⟨1, 1, none⟩, ⟨2, 2, none⟩]⟩ ∧
      par_run [10, 10] [0, 0, 1, 1] ⟨0, [⟨0, 1, none⟩, ⟨1, 2, none⟩]⟩ =
        .ok ⟨2, [⟨1, 1, none⟩, ⟨2, 2, none⟩]⟩ ∧
      count_loop [10, 10] 2 2 0 0 = .ok 2 :=
  ⟨rfl, rfl, rfl⟩

/-- C13.  For every buffer of length at least one and every record `(o, l)`
of the extraction pass that is followed by another record, the byte at index
`o + l` is a delimiter; the next record starts at `o + l + 1` when that byte
is `'\n'` and at `o + l + 2` when it is `'\r'`, whatever the byte after the
`'\r'` is. -/
theorem next_offset_after_delimiter (data : List Nat) (hL : 1 ≤ data.length) :
    ∃ recs, extract_pass data = .ok recs ∧
      ∀ (k : Nat) (a b : Int × Int), recs[k]? = some a → recs[k + 1]? = some b →
        (readByte data (a.1 + a.2) = .ok LF ∧ b.1 = a.1 + a.2 + 1) ∨
        (readByte data (a.1 + a.2) = .ok CR ∧ b.1 = a.1 + a.2 + 2) := by
  obtain ⟨recs, hrun, hrec⟩ := extract_pass_recs data hL
  exact ⟨recs, hrun, fun k a b ha hb => (recs_pair data recs 0 hrec k a b ha hb).2⟩

/-- Witness of C13 on the buffer `a`, `'\r'`, `b`, `c`, `'\n'`, `d`. -/
theorem next_offset_after_delimiter_witness :
    1 ≤ [97, 13, 98, 99, 10, 100].length ∧
      ∃ recs, extract_pass [97, 13, 98, 99, 10, 100] = .ok recs ∧
        ∀ (k : Nat) (a b : Int × Int), recs[k]? = some a → recs[k + 1]? = some b →
          (readByte [97, 13, 98, 99, 10, 100] (a.1 + a.2) = .ok LF ∧ b.1 = a.1 + a.2 + 1) ∨
          (readByte [97, 13, 98, 99, 10, 100] (a.1 + a.2) = .ok CR ∧ b.1 = a.1 + a.2 + 2) :=
  ⟨by decide, next_offset_after_delimiter [97, 13, 98, 99, 10, 100] (by decide)⟩

/-- C14 (evaluation at a failing input).  For `b` the two bytes `'\n'`, `a`,
`create_lookup` returns the row count `2` on `b`; on `b` followed by `'\n'`,
with the counting loop run by two workers on the index ranges `[0, 1)` and
`[1, 3)` that both load `num_lines` before either stores it back, it returns
the row count `1`.  The records are `(0,0)`, `(1,1)` in both calls. -/
theorem trailing_newline_row_count_depends_on_schedule :
    create_lookup [10, 97] [1, 1] [0, 0, 1] = .ok (2, [(0, 0), (1, 1)]) ∧
      create_lookup ([10, 97] ++ [LF]) [1, 2] [0, 1, 1, 0, 1] = .ok (1, [(0, 0), (1, 1)]) ∧
      create_lookup ([10, 97] ++ [LF]) [1, 2] [0, 0, 1, 1, 1] = .ok (2, [(0, 0), (1, 1)]) :=
  ⟨rfl, rfl, rfl⟩

/-- C15 (evaluation at a failing input).  For `b` the two bytes `'\n'`,
`'\n'`, with the counting loop run by two workers that both load `num_lines`
before either stores it back, `create_lookup` returns the row count `1` on
`b`; on `toCRLF b`, the workers running one after the other, it returns the
row count `2`.  The records are `(0,0)`, `(1,0)` for `b` and `(0,0)`, `(2,0)`
for `toCRLF b`. -/
theorem lf_crlf_row_count_depends_on_schedule :
    create_lookup [10, 10] [1, 1] [0, 1, 0, 1] = .ok (1, [(0, 0), (1, 0)]) ∧
      toCRLF [10, 10] = [13, 10, 13, 10] ∧
      create_lookup (toCRLF [10, 10]) [2, 2] [0, 0, 0, 1, 1, 1] = .ok (2, [(0, 0), (2, 0)]) :=
  ⟨rfl, rfl, rfl⟩

/-- C16.  The newline count of the counting loop is additive over
concatenation: for all byte sequences `b1` and `b2` the loop returns a count
on each, and on `b1` followed by `b2` it returns the sum of the two. -/
theorem count_loop_additive (b1 b2 : List Nat) :
    ∃ n1 n2 : Int, count_loop b1 b1.length b1.length 0 0 = .ok n1 ∧
      count_loop b2 b2.length b2.length 0 0 = .ok n2 ∧
      count_loop (b1 ++ b2) (b1 ++ b2).length (b1 ++ b2).length 0 0 = .ok (n1 + n2) := by
  have h1 := count_loop_eq b1 b1.length 0 0 (le_refl _) (by omega)
  have h2 := count_loop_eq b2 b2.length 0 0 (le_refl _) (by omega)
  have h3 := count_loop_eq (b1 ++ b2) (b1 ++ b2).length 0 0 (le_refl _) (by omega)
  simp only [Int.toNat_zero, List.drop_zero, zero_add] at h1 h2 h3
  refine ⟨_, _, h1, h2, ?_⟩
  rw [h3, List.count_append]
  push_cast
  rfl

/-- C17 (evaluation at a failing input).  On the four bytes `a`, `'\n'`, `b`,
`'\n'` (no `'\r'` at all), with the counting loop run by two workers on the
index ranges `[0, 2)` and `[2, 4)` that both load `num_lines` before either
stores it back, `create_lookup` returns the row count `1` while the
extraction pass writes the two records `(0,1)`, `(2,1)`. -/
theorem record_count_exceeds_num_lines_under_race :
    create_lookup [97, 10, 98, 10] [2, 2] [0, 0, 1, 1, 0, 1] = .ok (1, [(0, 1), (2, 1)]) ∧
      create_lookup [97, 10, 98, 10] [2, 2] [0, 0, 0, 1, 1, 1] = .ok (2, [(0, 1), (2, 1)]) ∧
      create_lookup_seq [97, 10, 98, 10] = .ok (2, [(0, 1), (2, 1)]) :=
  ⟨rfl, rfl, rfl⟩

/-- C18.  For every buffer of length at least one, whatever its mixture of
`'\n'` and `'\r'` bytes, both passes return a result and the number of records
the extraction pass writes is at least the row count `num_lines` of the
counting pass; this holds for the sequential counting loop and, whatever the
chunks and the schedule, for every result of `create_lookup` with the
counting loop run in parallel. -/
theorem record_count_ge_num_lines (data : List Nat) (hL : 1 ≤ data.length) :
    (∃ num_lines recs, count_pass_seq data = .ok num_lines ∧ extract_pass data = .ok recs ∧
      create_lookup_seq data = .ok (num_lines, recs) ∧ num_lines ≤ (recs.length : Int)) ∧
      ∀ (chunks sched : List Nat) (n : Int) (recs : List (Int × Int)),
        chunks.sum = data.length → create_lookup data chunks sched = .ok (n, recs) →
        n ≤ (recs.length : Int) := by
  refine ⟨⟨_, _, count_pass_eq_lineCount data hL, extract_pass_eq data hL,
    create_lookup_eq data hL, lineCount_le_lineRecs_length data⟩, ?_⟩
  intro chunks sched n recs hsum hrun
  rcases create_lookup_cases data hL chunks sched hsum with ⟨n', hn', hle⟩ | hfuel
  · rw [hn'] at hrun
    cases hrun
    exact le_trans hle (lineCount_le_lineRecs_length data)
  · rw [hfuel] at hrun
    cases hrun

/-- Witness of C18 on the buffer `a`, `'\r'`, `b` (one row counted, two
records written). -/
theorem record_count_ge_num_lines_witness :
    1 ≤ [97, 13, 98].length ∧
      ((∃ num_lines recs, count_pass_seq [97, 13, 98] = .ok num_lines ∧
        extract_pass [97, 13, 98] = .ok recs ∧
        create_lookup_seq [97, 13, 98] = .ok (num_lines, recs) ∧
        num_lines ≤ (recs.length : Int)) ∧
      ∀ (chunks sched : List Nat) (n : Int) (recs : List (Int × Int)),
        chunks.sum = ([97, 13, 98] : List Nat).length →
        create_lookup [97, 13, 98] chunks sched = .ok (n, recs) →
        n ≤ (recs.length : Int)) :=
  ⟨by decide, record_count_ge_num_lines [97, 13, 98] (by decide)⟩

/-- C19.  Reconstruction for LF-only input: for every buffer `b` of length at
least one without `'\r'`, the contents `buffer[o : o+l]` of the records of the
extraction pass, taken in table order and each followed by one `'\n'`, make up
`b` itself when `b` ends in `'\n'` and `b` followed by one `'\n'` otherwise;
no record content holds a `'\n'`. -/
theorem records_reconstruct_buffer (b : List Nat) (hL : 1 ≤ b.length)
    (hcr : ∀ c ∈ b, c ≠ CR) :
    ∃ recs, extract_pass b = .ok recs ∧
      reconstruct b recs = (if b.getLast? = some LF then b else b ++ [LF]) ∧
      ∀ r ∈ recs, ∀ x ∈ slice b r, x ≠ LF := by
  obtain ⟨recs, hrun, hrec⟩ := extract_pass_recs b hL
  refine ⟨recs, hrun, ?_, ?_⟩
  · rw [reconstruct_of_recs b hL hcr recs 0 (le_refl _) hrec]
    by_cases hlast : b.getLast? = some LF
    · simp [hlast]
    · simp [hlast]
  · intro r hr x hx
    obtain ⟨h0, _, hnd⟩ := recs_mem b recs 0 hrec r hr
    exact (slice_no_delimiter b r h0 hnd x hx).1

/-- Witness of C19 on Scenario B, the buffer `"a,b\nc,d"`. -/
theorem records_reconstruct_buffer_witness :
    1 ≤ [97, 44, 98, 10, 99, 44, 100].length ∧
      (∀ c ∈ ([97, 44, 98, 10, 99, 44, 100] : List Nat), c ≠ CR) ∧
      ∃ recs, extract_pass [97, 44, 98, 10, 99, 44, 100] = .ok recs ∧
        reconstruct [97, 44, 98, 10, 99, 44, 100] recs =
          (if ([97, 44, 98, 10, 99, 44, 100] : List Nat).getLast? = some LF
            then [97, 44, 98, 10, 99, 44, 100] else [97, 44, 98, 10, 99, 44, 100] ++ [LF]) ∧
        ∀ r ∈ recs, ∀ x ∈ slice [97, 44, 98, 10, 99, 44, 100] r, x ≠ LF :=
  ⟨by decide, by decide,
    records_reconstruct_buffer [97, 44, 98, 10, 99, 44, 100] (by decide) (by decide)⟩

end CsvLookup
